import Mathlib

/-!
# Verification of the SillyTavern ValueTracker plugin's Extension Storage Core

A shallow embedding of the plugin's identifier sanitizer
(`dist/helpers/utils.js` / `src/helpers/utils.ts`), JSON value codec
(the `typeof value === 'object' ? JSON.stringify(value) : String(value)`
encoder and the `try JSON.parse catch return raw string` decoder used by
`DatabaseManager`), the per-extension store (`DatabaseManager`, sql.js
variant, which is the variant compiled into `dist/`), and the registry /
cross-extension view (`CrossExtensionReader`).

Tables are modelled as lists of row records; SQL `SELECT ... WHERE pk = ?`
becomes `List.find?`, `DELETE ... WHERE` becomes `List.filter`, and
`INSERT OR REPLACE` removes the conflicting primary-key row and appends.
Timestamps (`new Date().toISOString()`) are modelled as naturals supplied
by the caller, ordered as the wall clock is.  JavaScript exceptions are
modelled with `Except String`; an operation that throws returns no
successor state, so a failed call leaves the store state unchanged by
construction.
-/

namespace ValueTracker

/-! ## Identifier sanitizer (`dist/helpers/utils.js`) -/

/-- The filename-dangerous characters replaced by `_`:
the regex class of `sanitizeExtensionId`. -/
def dangerChars : List Char := ['<', '>', ':', '"', '/', '\\', '|', '?', '*']

/-- Whitespace recognised by the model of JavaScript `String.prototype.trim`
and the whitespace regex class (ASCII fragment). -/
def isWsChar (c : Char) : Bool :=
  c = ' ' || c = '\t' || c = '\n' || c = '\r' || c = Char.ofNat 11 || c = Char.ofNat 12

/-- One left-to-right pass of a global empty-string regex replacement for the
three-character pattern `. . sl`: at each position, if the pattern matches it
is dropped and scanning resumes after it, otherwise one character is copied.
This is exactly the semantics of `str.replace(pat/g, '')`, a single pass over
the input with non-overlapping matches. -/
def stripDotDotF (sl : Char) : Nat → List Char → List Char
  | 0, l => l
  | _ + 1, [] => []
  | fuel + 1, c :: d :: e :: rest =>
    if c = '.' ∧ d = '.' ∧ e = sl then stripDotDotF sl fuel rest
    else c :: stripDotDotF sl fuel (d :: e :: rest)
  | _ + 1, l => l

/-- With enough fuel the scan result does not depend on the fuel. -/
theorem stripDotDotF_fuel_irrel (sl : Char) :
    ∀ (fuel fuel' : Nat) (l : List Char), l.length ≤ fuel → l.length ≤ fuel' →
      stripDotDotF sl fuel l = stripDotDotF sl fuel' l
  | fuel, fuel', [], _, _ => by
    cases fuel <;> cases fuel' <;> rfl
  | fuel + 1, fuel' + 1, [c], _, _ => rfl
  | fuel + 1, fuel' + 1, [c, d], _, _ => rfl
  | fuel + 1, fuel' + 1, c :: d :: e :: rest, h, h' => by
    simp only [List.length_cons] at h h'
    show (if c = '.' ∧ d = '.' ∧ e = sl then stripDotDotF sl fuel rest
          else c :: stripDotDotF sl fuel (d :: e :: rest)) =
        (if c = '.' ∧ d = '.' ∧ e = sl then stripDotDotF sl fuel' rest
          else c :: stripDotDotF sl fuel' (d :: e :: rest))
    split
    · exact stripDotDotF_fuel_irrel sl fuel fuel' rest (by omega) (by omega)
    · rw [stripDotDotF_fuel_irrel sl fuel fuel' (d :: e :: rest)
        (by simp only [List.length_cons]; omega) (by simp only [List.length_cons]; omega)]

/-- One left-to-right scan, driven by the input's own length as fuel. -/
def stripDotDot (sl : Char) (l : List Char) : List Char := stripDotDotF sl l.length l

/-- The traversal-removal phase of `sanitizeExtensionId` as shipped in
`dist/helpers/utils.js`: one global pass removing `../`, then one global
pass removing the backslash form. -/
def stripTraversalOnce (l : List Char) : List Char :=
  stripDotDot '\\' (stripDotDot '/' l)

theorem stripDotDot_nil (sl : Char) : stripDotDot sl [] = [] := rfl

theorem stripDotDot_cons_cons (sl c d e : Char) (rest : List Char) :
    stripDotDot sl (c :: d :: e :: rest) =
      if c = '.' ∧ d = '.' ∧ e = sl then stripDotDot sl rest
      else c :: stripDotDot sl (d :: e :: rest) := by
  show (if c = '.' ∧ d = '.' ∧ e = sl then stripDotDotF sl (rest.length + 1 + 1) rest
        else c :: stripDotDotF sl (rest.length + 1 + 1) (d :: e :: rest)) = _
  split
  · exact stripDotDotF_fuel_irrel sl _ _ rest (by omega) (by omega)
  · rw [stripDotDotF_fuel_irrel sl (rest.length + 1 + 1) (d :: e :: rest).length (d :: e :: rest)
      (by simp only [List.length_cons]; omega) (by simp only [List.length_cons]; omega)]
    rfl

theorem stripDotDot_short (sl c : Char) (rest : List Char) (h : rest.length < 2) :
    stripDotDot sl (c :: rest) = c :: rest := by
  match rest with
  | [] => rfl
  | [d] => rfl
  | d :: e :: r => simp only [List.length_cons] at h; omega

/-- Length never grows under one `stripDotDot` pass. -/
theorem stripDotDot_length_le (sl : Char) : ∀ l : List Char, (stripDotDot sl l).length ≤ l.length
  | [] => Nat.le_refl _
  | [_] => Nat.le_refl _
  | [_, _] => Nat.le_refl _
  | c :: d :: e :: rest => by
    rw [stripDotDot_cons_cons]
    split
    · have := stripDotDot_length_le sl rest
      simp only [List.length_cons]
      omega
    · have := stripDotDot_length_le sl (d :: e :: rest)
      simp only [List.length_cons] at this ⊢
      omega

/-- If one `stripDotDot` pass does not shorten its input, it left it alone. -/
theorem stripDotDot_eq_of_length_eq (sl : Char) :
    ∀ l : List Char, (stripDotDot sl l).length = l.length → stripDotDot sl l = l
  | [] => fun _ => rfl
  | [_] => fun _ => rfl
  | [_, _] => fun _ => rfl
  | c :: d :: e :: rest => fun hlen => by
    by_cases hcond : c = '.' ∧ d = '.' ∧ e = sl
    · exfalso
      rw [stripDotDot_cons_cons, if_pos hcond] at hlen
      have := stripDotDot_length_le sl rest
      simp only [List.length_cons] at hlen
      omega
    · rw [stripDotDot_cons_cons, if_neg hcond] at hlen ⊢
      simp only [List.length_cons] at hlen
      have h2 := stripDotDot_eq_of_length_eq sl (d :: e :: rest) (by
        simp only [List.length_cons]
        omega)
      rw [h2]

theorem stripTraversalOnce_length_le (l : List Char) :
    (stripTraversalOnce l).length ≤ l.length :=
  le_trans (stripDotDot_length_le '\\' _) (stripDotDot_length_le '/' l)

theorem stripTraversalOnce_shrinks {l : List Char} (h : stripTraversalOnce l ≠ l) :
    (stripTraversalOnce l).length < l.length := by
  by_contra hlt
  push_neg at hlt
  have h1 : (stripDotDot '/' l).length ≤ l.length := stripDotDot_length_le '/' l
  have h2 : (stripDotDot '\\' (stripDotDot '/' l)).length ≤ (stripDotDot '/' l).length :=
    stripDotDot_length_le '\\' _
  have hlen : (stripTraversalOnce l).length = l.length := by
    have := stripTraversalOnce_length_le l
    omega
  unfold stripTraversalOnce at hlen
  have hinner : (stripDotDot '/' l).length = l.length := by omega
  have e1 : stripDotDot '/' l = l := stripDotDot_eq_of_length_eq '/' l hinner
  rw [e1] at hlen
  have e2 : stripDotDot '\\' l = l := stripDotDot_eq_of_length_eq '\\' l hlen
  apply h
  unfold stripTraversalOnce
  rw [e1, e2]

/-- The traversal-removal phase of the *related-doc* variant of
`sanitizeExtensionId` (the do-while loop in `src/unnamed/part_004`):
iterate the single pass until a fixed point. -/
def stripTraversalLoop (l : List Char) : List Char :=
  let t := stripTraversalOnce l
  if h : t = l then l else stripTraversalLoop t
termination_by l.length
decreasing_by exact stripTraversalOnce_shrinks h

/-- The character-replacement phase: every dangerous character becomes `_`. -/
def replaceDanger (l : List Char) : List Char :=
  l.map fun c => if c ∈ dangerChars then '_' else c

/--
`sanitizeExtensionId` exactly as shipped (`dist/helpers/utils.js`, and the
first variant in `src/unnamed/part_004`): reject the empty string, do ONE
global removal pass for `../` and one for the backslash form, replace
dangerous characters with `_`, truncate to 255 characters, and reject a
result that became empty.  Errors model the thrown JavaScript errors.
-/
def sanitizeExtensionId (extensionId : String) : Except String String :=
  if extensionId = "" then .error "Extension ID cannot be empty"
  else
    let sanitized := (replaceDanger (stripTraversalOnce extensionId.data)).take 255
    if sanitized = [] then .error "Extension ID became empty after sanitization"
    else .ok ⟨sanitized⟩

/-- The related-doc variant of `sanitizeExtensionId` from `src/unnamed/part_004`
(lines 68-74): same pipeline, but the removal phase loops until stable. -/
def sanitizeExtensionIdLoop (extensionId : String) : Except String String :=
  if extensionId = "" then .error "Extension ID cannot be empty"
  else
    let sanitized := (replaceDanger (stripTraversalLoop extensionId.data)).take 255
    if sanitized = [] then .error "Extension ID became empty after sanitization"
    else .ok ⟨sanitized⟩

/-- Trim of JavaScript strings (`String.prototype.trim`), on character lists. -/
def trimChars (l : List Char) : List Char :=
  ((l.dropWhile isWsChar).reverse.dropWhile isWsChar).reverse

/--
`validateExtensionId` from `dist/helpers/utils.js`: sanitize, trim, reject an
empty or all-whitespace result, and reject a token starting with `.`.
-/
def validateExtensionId (extensionId : String) : Except String String := do
  let sanitized ← sanitizeExtensionId extensionId
  let trimmed := trimChars sanitized.data
  if trimmed.length < 1 then .error "Extension ID must be at least 1 character"
  else if sanitized.data.all isWsChar then .error "Extension ID cannot be only whitespace"
  else if trimmed.head? = some '.' then .error "Extension ID cannot start with a dot"
  else .ok ⟨trimmed⟩

/-! ## JSON value codec

The property-bag values are JavaScript values; `upsertData` encodes them with
`typeof value === 'object' ? JSON.stringify(value) : String(value)` and the
read paths decode with `try { JSON.parse(t) } catch { t }`.  `JValue` is the
JSON sum type.  Numbers: an integer-valued number is carried exactly as
`jnum` (JavaScript prints it in plain decimal and `JSON.parse` reads it
back); a number literal with a fraction or exponent part whose exact value
is not an integer denotes a binary64 float, whose value and shortest-decimal
rendering are outside the embedding, so it is carried as `jdec` with its
literal text (for a canonical literal such as `1.5` the `String(.)` form is
that same text).  The model of `JSON.parse` below covers the full grammar —
null / booleans / numbers with optional sign, fraction and exponent /
strings / arrays / objects with interleaved whitespace — and is lenient only
in directions that accept MORE than the real parser (leading zeros, unknown
escapes), never less: `jsonParse t = none` therefore models `JSON.parse(t)`
throwing. -/

inductive JValue where
  | jnull : JValue
  | jbool (b : Bool) : JValue
  | jnum (n : Int) : JValue
  | jdec (lit : String) : JValue
  | jstr (s : String) : JValue
  | jarr (elems : List JValue) : JValue
  | jobj (fields : List (String × JValue)) : JValue

/-- Decimal digit character, `0`-`9`. -/
def digitChar (n : Nat) : Char :=
  match n with
  | 0 => '0' | 1 => '1' | 2 => '2' | 3 => '3' | 4 => '4'
  | 5 => '5' | 6 => '6' | 7 => '7' | 8 => '8' | _ => '9'

/-- Decimal digits of a natural, most significant first. -/
def natDigits (n : Nat) : List Char :=
  if h : n < 10 then [digitChar n]
  else natDigits (n / 10) ++ [digitChar (n % 10)]
termination_by n
decreasing_by exact Nat.div_lt_self (by omega) (by omega)

/-- `String(n)` for an integer-valued JavaScript number. -/
def intToString (n : Int) : String :=
  if n < 0 then ⟨'-' :: natDigits n.natAbs⟩ else ⟨natDigits n.natAbs⟩

def isDigit (c : Char) : Bool := 48 ≤ c.toNat && c.toNat ≤ 57

/-- Numeric value of a digit run, most significant first. -/
def digitsToNat (l : List Char) : Nat :=
  l.foldl (fun a c => 10 * a + (c.toNat - 48)) 0

def openBrace : Char := Char.ofNat 123
def closeBrace : Char := Char.ofNat 125

/-- Escape a character inside a JSON string literal (fragment used by
`JSON.stringify`). -/
def escapeJsonChar (c : Char) : List Char :=
  if c = '"' then ['\\', '"']
  else if c = '\\' then ['\\', '\\']
  else if c = '\n' then ['\\', 'n']
  else if c = '\t' then ['\\', 't']
  else if c = '\r' then ['\\', 'r']
  else [c]

mutual

/-- `JSON.stringify` on the modelled fragment. -/
def jsonStringify : JValue → String
  | .jnull => "null"
  | .jbool true => "true"
  | .jbool false => "false"
  | .jnum n => intToString n
  | .jdec lit => lit
  | .jstr s => ⟨'"' :: s.data.foldr (fun c acc => escapeJsonChar c ++ acc) ['"']⟩
  | .jarr es => "[" ++ stringifyElems es ++ "]"
  | .jobj fs => "\x7b" ++ stringifyFields fs ++ "\x7d"

def stringifyElems : List JValue → String
  | [] => ""
  | [e] => jsonStringify e
  | e :: rest => jsonStringify e ++ "," ++ stringifyElems rest

def stringifyFields : List (String × JValue) → String
  | [] => ""
  | [(k, v)] => jsonStringify (.jstr k) ++ ":" ++ jsonStringify v
  | (k, v) :: rest => jsonStringify (.jstr k) ++ ":" ++ jsonStringify v ++ "," ++ stringifyFields rest

end

/--
The encoder used by `upsertData` in `DatabaseManager`:
`typeof value === 'object' ? JSON.stringify(value) : String(value)`.
`typeof` is `'object'` for `null`, arrays and objects; every other value is
stringified with `String(.)` — in particular a string value is stored as its
own text, NOT as a quoted JSON string literal.
-/
def encodeValue : JValue → String
  | .jnull => "null"
  | .jbool true => "true"
  | .jbool false => "false"
  | .jnum n => intToString n
  | .jdec lit => lit
  | .jstr s => s
  | v => jsonStringify v

/-- JSON whitespace skipped between tokens by `JSON.parse`. -/
def isJsonWs (c : Char) : Bool := c = ' ' || c = '\t' || c = '\n' || c = '\r'

def skipWs (l : List Char) : List Char := l.dropWhile isJsonWs

def unescapeChar (c : Char) : Char :=
  if c = 'n' then '\n' else if c = 't' then '\t' else if c = 'r' then '\r' else c

/-- Body of a JSON string literal after the opening quote: returns the decoded
characters and the input after the closing quote. -/
def parseStringBody : List Char → Option (List Char × List Char)
  | [] => none
  | c :: rest =>
    if c = '"' then some ([], rest)
    else if c = '\\' then
      match rest with
      | [] => none
      | e :: rest2 => (parseStringBody rest2).map fun p => (unescapeChar e :: p.1, p.2)
    else (parseStringBody rest).map fun p => (c :: p.1, p.2)

/-- Fraction part of a JSON number: `.` followed by at least one digit, or
nothing.  Returns the fraction digits (`[]` when no fraction part is present)
and the remaining input; `none` models the `SyntaxError` on a decimal point
without digits. -/
def parseFracPart (l : List Char) : Option (List Char × List Char) :=
  match l with
  | [] => some ([], [])
  | c :: r =>
    if c = '.' then
      if r.takeWhile isDigit = [] then none
      else some (r.takeWhile isDigit, r.dropWhile isDigit)
    else some ([], c :: r)

/-- Exponent part of a JSON number: `e` or `E`, an optional sign and at
least one digit, or nothing.  Returns the exponent value, the literal
characters consumed and the remaining input; `none` models the
`SyntaxError` on a dangling exponent marker. -/
def parseExpPart (l : List Char) : Option (Int × List Char × List Char) :=
  match l with
  | [] => some (0, [], [])
  | c :: r =>
    if c = 'e' ∨ c = 'E' then
      match r with
      | [] => none
      | s :: r2 =>
        if s = '+' then
          if r2.takeWhile isDigit = [] then none
          else some (Int.ofNat (digitsToNat (r2.takeWhile isDigit)),
                     c :: s :: r2.takeWhile isDigit, r2.dropWhile isDigit)
        else if s = '-' then
          if r2.takeWhile isDigit = [] then none
          else some (-(Int.ofNat (digitsToNat (r2.takeWhile isDigit))),
                     c :: s :: r2.takeWhile isDigit, r2.dropWhile isDigit)
        else
          if (s :: r2).takeWhile isDigit = [] then none
          else some (Int.ofNat (digitsToNat ((s :: r2).takeWhile isDigit)),
                     c :: (s :: r2).takeWhile isDigit, (s :: r2).dropWhile isDigit)
    else some (0, [], c :: r)

/-- Sign applied to a parsed magnitude. -/
def intSign (neg : Bool) (m : Nat) : Int :=
  if neg then -(Int.ofNat m) else Int.ofNat m

/-- Value of a JSON number literal with integer digits `ds`, fraction digits
`fs` and exponent `e`: the exact value is `sign * (ds.fs) * 10^e`.  When that
value is an integer `JSON.parse` yields the integer (`jnum`); otherwise the
binary64 value is outside the embedding and the literal `lit` is carried
(`jdec`). -/
def mkJsonNumber (neg : Bool) (ds fs : List Char) (e : Int) (lit : List Char) : JValue :=
  if 0 ≤ e - Int.ofNat fs.length then
    .jnum (intSign neg (digitsToNat (ds ++ fs)) *
           Int.ofNat (10 ^ (e - Int.ofNat fs.length).toNat))
  else if intSign neg (digitsToNat (ds ++ fs)) %
          Int.ofNat (10 ^ (Int.ofNat fs.length - e).toNat) = 0 then
    .jnum (intSign neg (digitsToNat (ds ++ fs)) /
           Int.ofNat (10 ^ (Int.ofNat fs.length - e).toNat))
  else .jdec ⟨lit⟩

/-- A JSON number after the optional leading minus: integer digits, then an
optional fraction and an optional exponent — the full `JSON.parse` number
grammar.  (Lenient about leading zeros, which only accepts more than the
real parser, never less.) -/
def parseUnsignedJsonNumber (neg : Bool) (l : List Char) : Option (JValue × List Char) :=
  if l.takeWhile isDigit = [] then none
  else
    match parseFracPart (l.dropWhile isDigit) with
    | none => none
    | some (fs, r2) =>
      match parseExpPart r2 with
      | none => none
      | some (e, elit, r3) =>
        some (mkJsonNumber neg (l.takeWhile isDigit) fs e
          ((if neg then ['-'] else []) ++ l.takeWhile isDigit ++
            (if fs = [] then [] else '.' :: fs) ++ elit), r3)

mutual

/-- Fuel-indexed model of `JSON.parse` on the fragment described at `JValue`:
parses one value and returns the remaining input. -/
def parseJsonValue : Nat → List Char → Option (JValue × List Char)
  | 0, _ => none
  | fuel + 1, l =>
    match skipWs l with
    | [] => none
    | c :: rest =>
      if isDigit c then
        parseUnsignedJsonNumber false (c :: rest)
      else if c = '-' then
        parseUnsignedJsonNumber true rest
      else if c = 'n' then
        match rest with
        | 'u' :: 'l' :: 'l' :: r => some (.jnull, r)
        | _ => none
      else if c = 't' then
        match rest with
        | 'r' :: 'u' :: 'e' :: r => some (.jbool true, r)
        | _ => none
      else if c = 'f' then
        match rest with
        | 'a' :: 'l' :: 's' :: 'e' :: r => some (.jbool false, r)
        | _ => none
      else if c = '"' then
        (parseStringBody rest).map fun p => (.jstr ⟨p.1⟩, p.2)
      else if c = '[' then
        match skipWs rest with
        | [] => none
        | d :: r =>
          if d = ']' then some (.jarr [], r)
          else (parseJsonElems fuel (d :: r)).map fun p => (.jarr p.1, p.2)
      else if c = openBrace then
        match skipWs rest with
        | d :: r => if d = closeBrace then some (.jobj [], r)
                    else (parseJsonFields fuel (d :: r)).map fun p => (.jobj p.1, p.2)
        | [] => none
      else none

/-- Comma-separated array elements up to the closing bracket. -/
def parseJsonElems : Nat → List Char → Option (List JValue × List Char)
  | 0, _ => none
  | fuel + 1, l => do
    let (v, r) ← parseJsonValue fuel l
    match skipWs r with
    | ',' :: r2 => do
      let (vs, r3) ← parseJsonElems fuel r2
      pure (v :: vs, r3)
    | ']' :: r2 => pure ([v], r2)
    | _ => none

/-- Comma-separated `"key": value` object fields up to the closing brace. -/
def parseJsonFields : Nat → List Char → Option (List (String × JValue) × List Char)
  | 0, _ => none
  | fuel + 1, l =>
    match skipWs l with
    | '"' :: r => do
      let (k, r2) ← parseStringBody r
      match skipWs r2 with
      | ':' :: r3 => do
        let (v, r4) ← parseJsonValue fuel r3
        match skipWs r4 with
        | ',' :: r5 => do
          let (fs, r6) ← parseJsonFields fuel r5
          pure ((⟨k⟩, v) :: fs, r6)
        | d :: r5 => if d = closeBrace then pure ([(⟨k⟩, v)], r5) else none
        | [] => none
      | _ => none
    | _ => none

end

/-- `JSON.parse t`: `some v` on success, `none` when it throws. -/
def jsonParse (t : String) : Option JValue :=
  match parseJsonValue (t.data.length + 1) t.data with
  | some (v, rest) => if skipWs rest = [] then some v else none
  | none => none

/-- The decoder of the read paths: `try { JSON.parse(t) } catch { t }`. -/
def decodeValue (t : String) : JValue :=
  (jsonParse t).getD (.jstr t)

mutual

/-- The JSON values on which the embedding's number model is exact: every
number leaf is an integer (`jnum`); no `jdec` float literal occurs.  String
leaves are unrestricted — inside arrays and objects `JSON.stringify` quotes
them. -/
def jsonIntValued : JValue → Bool
  | .jnull => true
  | .jbool _ => true
  | .jnum _ => true
  | .jdec _ => false
  | .jstr _ => true
  | .jarr es => jsonIntValuedList es
  | .jobj fs => jsonIntValuedFields fs

def jsonIntValuedList : List JValue → Bool
  | [] => true
  | v :: vs => jsonIntValued v && jsonIntValuedList vs

def jsonIntValuedFields : List (String × JValue) → Bool
  | [] => true
  | (_, v) :: fs => jsonIntValued v && jsonIntValuedFields fs

end

/-! ## The per-extension store: `DatabaseManager` (sql.js variant)

The embedding follows `src/src/managers/DatabaseManager.ts` (the variant
compiled into `dist/managers/DatabaseManager.js`).  A `DBState` is the
in-memory sql.js database (three tables) plus the open flag of the native
handle and the bytes last flushed to `<cwd>/db/<extensionId>.db` (`file`);
`flushToDisk` snapshots the tables into `file`.  Reads that go through
`db.prepare` on a closed handle throw, which the model renders as the
`Database is closed` error. -/

/-- A row of the `characters` table. -/
structure CharRow where
  id : String
  name : Option String
  createdAt : Nat
  updatedAt : Nat
deriving DecidableEq

/-- A row of the `instances` table. -/
structure InstRow where
  id : String
  characterId : String
  name : Option String
  createdAt : Nat
  updatedAt : Nat
deriving DecidableEq

/-- A row of the `data` table; primary key `(instanceId, key)`. -/
structure DataRow where
  instanceId : String
  key : String
  value : String
  createdAt : Nat
  updatedAt : Nat
deriving DecidableEq

/-- The serialized database image written by `db.export()` + `fs.writeFile`. -/
structure DBImage where
  characters : List CharRow
  instances : List InstRow
  data : List DataRow
deriving DecidableEq

/-- The state owned by one `DatabaseManager`. -/
structure DBState where
  characters : List CharRow
  instances : List InstRow
  data : List DataRow
  dbOpen : Bool
  file : Option DBImage
deriving DecidableEq

namespace DatabaseManager

/-- `flushToDisk`: `fs.writeFile(this.dbPath, this.db.export())`. -/
def flushToDisk (st : DBState) : DBState :=
  { st with file := some ⟨st.characters, st.instances, st.data⟩ }

/-- JavaScript `x || null` on an optional string: `undefined`, `null` and
the empty string are all falsy, so they all become SQL `NULL`. -/
def jsTruthyName (name : Option String) : Option String :=
  match name with
  | some s => if s = "" then none else some s
  | none => none

/-- SQL `COALESCE(x, y)`. -/
def coalesce (x y : Option String) : Option String :=
  match x with
  | some s => some s
  | none => y

/-- `getCharacter`: `SELECT ... FROM characters WHERE id = ?`
(throws if the handle is closed). -/
def getCharacter (st : DBState) (id : String) : Except String (Option CharRow) :=
  if !st.dbOpen then .error "Database is closed"
  else .ok (st.characters.find? fun r => r.id == id)

/-- `getAllCharacters`: `SELECT ... FROM characters`. -/
def getAllCharacters (st : DBState) : Except String (List CharRow) :=
  if !st.dbOpen then .error "Database is closed"
  else .ok st.characters

/-- `getInstance`: `SELECT ... FROM instances WHERE id = ?`. -/
def getInstance (st : DBState) (id : String) : Except String (Option InstRow) :=
  if !st.dbOpen then .error "Database is closed"
  else .ok (st.instances.find? fun r => r.id == id)

/-- `getInstancesByCharacter`: `SELECT ... FROM instances WHERE character_id = ?`. -/
def getInstancesByCharacter (st : DBState) (characterId : String) :
    Except String (List InstRow) :=
  if !st.dbOpen then .error "Database is closed"
  else .ok (st.instances.filter fun r => r.characterId == characterId)

/--
`upsertCharacter`: reject a closed store and an empty id; if the character
exists, `UPDATE characters SET name = COALESCE(?, name), updated_at = ?`
with the bound name being `character.name || null`; otherwise `INSERT`.
Then re-`SELECT` the row (throwing if absent) and flush to disk.
-/
def upsertCharacter (st : DBState) (id : String) (name : Option String) (now : Nat) :
    Except String (CharRow × DBState) :=
  if !st.dbOpen then .error "Database is closed"
  else if id = "" then .error "Character ID is required"
  else
    let chars :=
      match st.characters.find? (fun r => r.id == id) with
      | some _ =>
        st.characters.map fun r =>
          if r.id == id then
            { r with name := coalesce (jsTruthyName name) r.name, updatedAt := now }
          else r
      | none =>
        st.characters ++ [{ id := id, name := jsTruthyName name, createdAt := now, updatedAt := now }]
    match chars.find? (fun r => r.id == id) with
    | some row => .ok (row, flushToDisk { st with characters := chars })
    | none => .error "Failed to retrieve character after upsert"

/--
`upsertInstance`: reject a closed store and empty ids; on update,
`name = COALESCE(?, name)` with `instance.name || null` and
`character_id = COALESCE(?, character_id)` with the (non-empty, hence
non-null) `instance.characterId`; on insert, plain `INSERT`.  Then
re-`SELECT` and flush.
-/
def upsertInstance (st : DBState) (id characterId : String) (name : Option String) (now : Nat) :
    Except String (InstRow × DBState) :=
  if !st.dbOpen then .error "Database is closed"
  else if id = "" ∨ characterId = "" then .error "Instance ID and character ID are required"
  else
    let insts :=
      match st.instances.find? (fun r => r.id == id) with
      | some _ =>
        st.instances.map fun r =>
          if r.id == id then
            { r with name := coalesce (jsTruthyName name) r.name,
                     characterId := (coalesce (some characterId) (some r.characterId)).getD r.characterId,
                     updatedAt := now }
          else r
      | none =>
        st.instances ++
          [{ id := id, characterId := characterId, name := jsTruthyName name,
             createdAt := now, updatedAt := now }]
    match insts.find? (fun r => r.id == id) with
    | some row => .ok (row, flushToDisk { st with instances := insts })
    | none => .error "Failed to retrieve instance after upsert"

/--
`deleteCharacter`: reject an empty id; `SELECT` the character (the prepared
statement throws on a closed handle); return `false` without any write when
it does not exist; otherwise delete the data rows of every instance of the
character (loop over `getInstancesByCharacter`), the instances, and the
character, then flush.
-/
def deleteCharacter (st : DBState) (id : String) : Except String (Bool × DBState) :=
  if id = "" then .error "Character ID is required"
  else if !st.dbOpen then .error "Database is closed"
  else
    match st.characters.find? (fun r => r.id == id) with
    | none => .ok (false, st)
    | some _ =>
      let insts := st.instances.filter fun i => i.characterId == id
      let data := insts.foldl (fun acc i => acc.filter fun d => !(d.instanceId == i.id)) st.data
      .ok (true, flushToDisk
        { st with
          characters := st.characters.filter fun r => !(r.id == id),
          instances := st.instances.filter fun i => !(i.characterId == id),
          data := data })

/-- `upsertData`: reject a closed store and empty ids; encode the value with
the codec; `INSERT OR REPLACE INTO data` on the `(instance_id, key)` primary
key; flush. -/
def upsertData (st : DBState) (instanceId key : String) (value : JValue) (now : Nat) :
    Except String (Unit × DBState) :=
  if !st.dbOpen then .error "Database is closed"
  else if instanceId = "" ∨ key = "" then .error "Instance ID and key are required"
  else
    let valueStr := encodeValue value
    .ok ((), flushToDisk
      { st with data :=
          (st.data.filter fun d => !(d.instanceId == instanceId && d.key == key)) ++
          [{ instanceId := instanceId, key := key, value := valueStr,
             createdAt := now, updatedAt := now }] })

/-- `getData`: all rows of one instance, decoded into a key-value record. -/
def getData (st : DBState) (instanceId : String) :
    Except String (List (String × JValue)) :=
  if !st.dbOpen then .error "Database is closed"
  else .ok ((st.data.filter fun d => d.instanceId == instanceId).map
    fun d => (d.key, decodeValue d.value))

/-- `getDataValue`: reject empty ids; `SELECT value ... WHERE instance_id = ?
AND key = ?`; `if (!row || !row.value) return undefined` — a missing row AND
a row whose stored text is empty (falsy) both read as `undefined`; otherwise
decode. -/
def getDataValue (st : DBState) (instanceId key : String) :
    Except String (Option JValue) :=
  if instanceId = "" ∨ key = "" then .error "Instance ID and key are required"
  else if !st.dbOpen then .error "Database is closed"
  else
    match st.data.find? (fun d => d.instanceId == instanceId && d.key == key) with
    | none => .ok none
    | some row => if row.value = "" then .ok none else .ok (some (decodeValue row.value))

/-- `deleteDataValue`: reject empty ids; read the value through
`getDataValue`; `false` when that read `undefined`; else delete and flush. -/
def deleteDataValue (st : DBState) (instanceId key : String) :
    Except String (Bool × DBState) := do
  if instanceId = "" ∨ key = "" then .error "Instance ID and key are required"
  else do
    let existing ← getDataValue st instanceId key
    match existing with
    | none => .ok (false, st)
    | some _ => .ok (true, flushToDisk
        { st with data := st.data.filter fun d => !(d.instanceId == instanceId && d.key == key) })

/-- `clearInstanceData`: reject an empty id; `false` when the bag is already
empty; else delete all rows of the instance and flush. -/
def clearInstanceData (st : DBState) (instanceId : String) : Except String (Bool × DBState) := do
  if instanceId = "" then .error "Instance ID is required"
  else do
    let current ← getData st instanceId
    if current.length = 0 then .ok (false, st)
    else .ok (true, flushToDisk
      { st with data := st.data.filter fun d => !(d.instanceId == instanceId) })

/-- `{instance, data}` as returned by `getFullInstance`. -/
structure FullInstanceRes where
  inst : InstRow
  data : List (String × JValue)

/-- `{character, instances: [{instance, data}, ...]}` as returned by
`getFullCharacter`. -/
structure FullCharacterRes where
  character : CharRow
  instances : List FullInstanceRes

/-- `getFullInstance`: the instance row plus its decoded data bag. -/
def getFullInstance (st : DBState) (id : String) :
    Except String (Option FullInstanceRes) := do
  match ← getInstance st id with
  | none => .ok none
  | some i => do
    let d ← getData st id
    .ok (some ⟨i, d⟩)

/-- `getFullCharacter`: the character row plus all its instances with their
decoded data bags. -/
def getFullCharacter (st : DBState) (id : String) :
    Except String (Option FullCharacterRes) := do
  match ← getCharacter st id with
  | none => .ok none
  | some c => do
    let insts ← getInstancesByCharacter st id
    let fis ← insts.mapM fun i => do
      let d ← getData st i.id
      pure (⟨i, d⟩ : FullInstanceRes)
    .ok (some ⟨c, fis⟩)

/-- `close`: flush, then release the native handle; all errors are caught and
only logged, so `close` itself never throws.  On an already-closed store the
flush throws and is swallowed, leaving the state as it was. -/
def close (st : DBState) : DBState :=
  if st.dbOpen then { flushToDisk st with dbOpen := false } else st

/-- The `dbPath` computed by `DatabaseManager.create` (sql.js variant):
reject a falsy extension id, validate it, and join
`path.join(process.cwd(), 'db', extensionId + '.db')`. -/
def createDbPath (cwd extensionId : String) : Except String String :=
  if extensionId = "" then .error "A valid extension ID is required to create a DatabaseManager."
  else (validateExtensionId extensionId).map fun v => cwd ++ "/db/" ++ v ++ ".db"

/-- The `dbPath` computed by the better-sqlite3 variant's
`constructor(dbPath, extensionId)`: reject a falsy extension id, validate,
*ignore the `dbPath` argument* (only a warning is logged when one is given),
re-check the validated id for emptiness, and join the fixed location. -/
def constructorDbPath (cwd : String) (dbPath : Option String) (extensionId : String) :
    Except String String :=
  if extensionId = "" then .error "Extension ID is required for per-extension database"
  else do
    let v ← validateExtensionId extensionId
    if v = "" then .error "Extension ID is empty after validation"
    else .ok (cwd ++ "/db/" ++ v ++ ".db")

end DatabaseManager

/-! ## Registry and read-only cross-extension view (`CrossExtensionReader`)

JavaScript stores live on the heap and the registry's `Map` holds references
to them; other parts of the process may alias the same `DatabaseManager`.
`World.heap` is the list of live stores (a reference is an index) and
`World.registry` is the `extensionDatabases: Map<string, DatabaseManager>`
mapping sanitized extension ids to references. -/

/-- A reference to a `DatabaseManager` object. -/
abbrev StoreRef := Nat

/-- The process state seen by the `CrossExtensionReader`. -/
structure World where
  heap : List DBState
  registry : List (String × StoreRef)

namespace CrossExtensionReader

/-- `Map.get` on the registry. -/
def lookupReg (reg : List (String × StoreRef)) (k : String) : Option StoreRef :=
  (reg.find? fun p => p.1 == k).map fun p => p.2

/-- `getDbManager`: validate the id, then look the store up in the map;
`null` when absent. -/
def getDbManager (w : World) (extensionId : String) : Except String (Option StoreRef) := do
  let sanitizedExtensionId ← validateExtensionId extensionId
  .ok (lookupReg w.registry sanitizedExtensionId)

/-- `deregisterExtensionDatabase`: validate the id; if a store is registered,
remove the map entry — the store itself is deliberately NOT closed ("Don't
close the database manager here if it's shared with other parts of the app");
if none is registered, only a message is logged. -/
def deregisterExtensionDatabase (w : World) (extensionId : String) : Except String World := do
  let sanitizedExtensionId ← validateExtensionId extensionId
  match lookupReg w.registry sanitizedExtensionId with
  | some _ => .ok { w with registry := w.registry.filter fun p => !(p.1 == sanitizedExtensionId) }
  | none => .ok w

/-- Dereference a store; a live `Map` entry always points at an object. -/
def deref (w : World) (ref : StoreRef) : Except String DBState :=
  match w.heap.get? ref with
  | some st => .ok st
  | none => .error "dangling store reference"

/-- `getFullCharacter(extensionId, characterId)` of the reader: validate,
fetch the store (re-validating inside `getDbManager`), `null` when no store
is registered, else delegate. -/
def readerGetFullCharacter (w : World) (extensionId characterId : String) :
    Except String (Option DatabaseManager.FullCharacterRes) := do
  let sanitizedExtensionId ← validateExtensionId extensionId
  match ← getDbManager w sanitizedExtensionId with
  | none => .ok none
  | some ref => do
    let st ← deref w ref
    DatabaseManager.getFullCharacter st characterId

/-- `getFullInstance(extensionId, instanceId)` of the reader. -/
def readerGetFullInstance (w : World) (extensionId instanceId : String) :
    Except String (Option DatabaseManager.FullInstanceRes) := do
  let sanitizedExtensionId ← validateExtensionId extensionId
  match ← getDbManager w sanitizedExtensionId with
  | none => .ok none
  | some ref => do
    let st ← deref w ref
    DatabaseManager.getFullInstance st instanceId

/-- `getInstanceData(extensionId, instanceId)` of the reader; the neutral
value for an unregistered extension is the empty mapping. -/
def readerGetInstanceData (w : World) (extensionId instanceId : String) :
    Except String (List (String × JValue)) := do
  let sanitizedExtensionId ← validateExtensionId extensionId
  match ← getDbManager w sanitizedExtensionId with
  | none => .ok []
  | some ref => do
    let st ← deref w ref
    DatabaseManager.getData st instanceId

/-- `getDataValue(extensionId, instanceId, key)` of the reader; the neutral
value for an unregistered extension is `undefined`. -/
def readerGetDataValue (w : World) (extensionId instanceId key : String) :
    Except String (Option JValue) := do
  let sanitizedExtensionId ← validateExtensionId extensionId
  match ← getDbManager w sanitizedExtensionId with
  | none => .ok none
  | some ref => do
    let st ← deref w ref
    DatabaseManager.getDataValue st instanceId key

/-- `getAllCharacters(extensionId)` of the reader; neutral value `[]`. -/
def readerGetAllCharacters (w : World) (extensionId : String) :
    Except String (List CharRow) := do
  let sanitizedExtensionId ← validateExtensionId extensionId
  match ← getDbManager w sanitizedExtensionId with
  | none => .ok []
  | some ref => do
    let st ← deref w ref
    DatabaseManager.getAllCharacters st

/-- `getInstancesByCharacter(extensionId, characterId)` of the reader;
neutral value `[]`. -/
def readerGetInstancesByCharacter (w : World) (extensionId characterId : String) :
    Except String (List InstRow) := do
  let sanitizedExtensionId ← validateExtensionId extensionId
  match ← getDbManager w sanitizedExtensionId with
  | none => .ok []
  | some ref => do
    let st ← deref w ref
    DatabaseManager.getInstancesByCharacter st characterId

end CrossExtensionReader

/-! ## Helper lemmas about the list-level table operations -/

/-- A `find?` never hits an element the preceding `filter` removed. -/
theorem find?_filter_not {α : Type} (p : α → Bool) (l : List α) :
    (l.filter fun x => !(p x)).find? p = none := by
  rw [List.find?_eq_none]
  intro x hx
  have := (List.mem_filter.mp hx).2
  simp only [Bool.not_eq_true'] at this
  simp [this]

/-- `UPDATE ... WHERE id = ?` as `map`, seen through `SELECT ... WHERE id = ?`:
if the update function preserves the id column, looking the row up after the
update finds the updated row. -/
theorem find?_map_update_chars (l : List CharRow) (id : String) (f : CharRow → CharRow)
    (hf : ∀ r, (f r).id = r.id) :
    ((l.map fun r => if r.id == id then f r else r).find? fun r => r.id == id) =
      (l.find? fun r => r.id == id).map f := by
  induction l with
  | nil => rfl
  | cons a t ih =>
    by_cases ha : (a.id == id) = true
    · rw [List.map_cons, if_pos ha,
        @List.find?_cons_of_pos CharRow (fun r => r.id == id) (f a) _ (by show ((f a).id == id) = true; rw [hf a]; exact ha),
        @List.find?_cons_of_pos CharRow (fun r => r.id == id) a _ ha]
      rfl
    · rw [List.map_cons, if_neg ha,
        @List.find?_cons_of_neg CharRow (fun r => r.id == id) a _ ha,
        @List.find?_cons_of_neg CharRow (fun r => r.id == id) a _ ha]
      exact ih

/-- After the cascade loop `for (instance of insts) DELETE FROM data WHERE
instance_id = instance.id`, no surviving row belongs to any listed instance. -/
theorem mem_cascade_data_delete (insts : List InstRow) :
    ∀ (data : List DataRow) (d : DataRow),
      d ∈ insts.foldl (fun acc i => acc.filter fun x => !(x.instanceId == i.id)) data →
      d ∈ data ∧ ∀ i ∈ insts, d.instanceId ≠ i.id := by
  induction insts with
  | nil => intro data d hd; exact ⟨hd, by simp⟩
  | cons i is ih =>
    intro data d hd
    simp only [List.foldl_cons] at hd
    obtain ⟨hmem, hrest⟩ := ih _ _ hd
    have h2 := List.mem_filter.mp hmem
    refine ⟨h2.1, ?_⟩
    intro j hj
    rcases List.mem_cons.mp hj with rfl | hj2
    · have := h2.2
      simp only [Bool.not_eq_true', beq_eq_false_iff_ne, ne_eq] at this
      exact this
    · exact hrest j hj2

/-! ## Sanitizer lemmas -/

theorem stripDotDot_eq_self_of_not_mem (sl : Char) :
    ∀ l : List Char, sl ∉ l → stripDotDot sl l = l
  | [] => fun _ => rfl
  | [_] => fun _ => rfl
  | [_, _] => fun _ => rfl
  | c :: d :: e :: rest => fun h => by
    rw [stripDotDot_cons_cons]
    have he : e ≠ sl := by
      intro hcontra
      exact h (by simp [hcontra])
    rw [if_neg (by tauto)]
    rw [stripDotDot_eq_self_of_not_mem sl (d :: e :: rest) (by
      intro hcontra
      exact h (List.mem_cons_of_mem c hcontra))]

/-- Every character the replacement phase emits is safe. -/
theorem replaceDanger_not_mem_danger {l : List Char} {c : Char}
    (h : c ∈ replaceDanger l) : c ∉ dangerChars := by
  unfold replaceDanger at h
  obtain ⟨a, _, ha⟩ := List.mem_map.mp h
  by_cases hd : a ∈ dangerChars
  · rw [if_pos hd] at ha
    rw [← ha]
    decide
  · rwa [if_neg hd, ← ha] at *

/-- Replacing dangerous characters in a string that has none is the identity. -/
theorem replaceDanger_eq_self {l : List Char} (h : ∀ c ∈ l, c ∉ dangerChars) :
    replaceDanger l = l := by
  unfold replaceDanger
  induction l with
  | nil => rfl
  | cons a t ih =>
    simp only [List.map_cons]
    rw [if_neg (h a (List.mem_cons_self a t)), ih fun c hc => h c (List.mem_cons_of_mem a hc)]

theorem dropWhile_idem {α : Type} (p : α → Bool) (l : List α) :
    (l.dropWhile p).dropWhile p = l.dropWhile p := by
  induction l with
  | nil => rfl
  | cons a t ih =>
    by_cases hp : p a
    · simp [List.dropWhile_cons, hp, ih]
    · simp [List.dropWhile_cons, hp]

theorem head?_dropWhile_false {α : Type} (p : α → Bool) (l : List α) {c : α}
    (h : (l.dropWhile p).head? = some c) : p c = false := by
  induction l with
  | nil => simp at h
  | cons a t ih =>
    by_cases hp : p a
    · rw [List.dropWhile_cons, if_pos hp] at h
      exact ih h
    · rw [List.dropWhile_cons, if_neg hp] at h
      simp only [List.head?_cons, Option.some.injEq] at h
      rw [← h]
      exact Bool.not_eq_true _ ▸ (by simpa using hp)

theorem dropWhile_eq_self_of_head {α : Type} (p : α → Bool) (l : List α)
    (h : ∀ c, l.head? = some c → p c = false) : l.dropWhile p = l := by
  cases l with
  | nil => rfl
  | cons a t =>
    rw [List.dropWhile_cons, if_neg]
    simp [h a rfl]

/-- The trailing-trim is a prefix of the input. -/
theorem dropTrailing_prefix (p : Char → Bool) (m : List Char) :
    ∃ u, ((m.reverse.dropWhile p).reverse) ++ u = m := by
  refine ⟨(m.reverse.takeWhile p).reverse, ?_⟩
  rw [← List.reverse_append, List.takeWhile_append_dropWhile, List.reverse_reverse]

theorem trimChars_sublist (l : List Char) : List.Sublist (trimChars l) l := by
  unfold trimChars
  have h1 : List.Sublist (l.dropWhile isWsChar) l := List.dropWhile_sublist _
  have h2 : List.Sublist ((l.dropWhile isWsChar).reverse.dropWhile isWsChar)
      (l.dropWhile isWsChar).reverse := List.dropWhile_sublist _
  have h3 := h2.reverse
  rw [List.reverse_reverse] at h3
  exact h3.trans h1

/-- The head of a trimmed token is never whitespace. -/
theorem trimChars_head_not_ws {l : List Char} {c : Char}
    (hc : (trimChars l).head? = some c) : isWsChar c = false := by
  have hpre := dropTrailing_prefix isWsChar (l.dropWhile isWsChar)
  obtain ⟨u, hu⟩ := hpre
  have hheadS : (l.dropWhile isWsChar).head? = some c := by
    rw [← hu]
    cases hT : trimChars l with
    | nil => rw [hT] at hc; simp at hc
    | cons a t =>
      rw [hT] at hc
      simp only [List.head?_cons, Option.some.injEq] at hc
      unfold trimChars at hT
      rw [hT, hc]
      simp
  exact head?_dropWhile_false isWsChar l hheadS

/-- Trimming is idempotent. -/
theorem trimChars_idem (l : List Char) : trimChars (trimChars l) = trimChars l := by
  conv_lhs => rw [trimChars]
  have hdropL : (trimChars l).dropWhile isWsChar = trimChars l := by
    apply dropWhile_eq_self_of_head
    intro c hc
    exact trimChars_head_not_ws hc
  rw [hdropL]
  conv_lhs => rw [trimChars]
  rw [List.reverse_reverse, dropWhile_idem]
  rfl

/-- A nonempty trimmed token is not all-whitespace. -/
theorem trimChars_not_all_ws {l : List Char} (h : trimChars l ≠ []) :
    (trimChars l).all isWsChar = false := by
  cases hT : trimChars l with
  | nil => exact absurd hT h
  | cons a t =>
    have ha : isWsChar a = false := trimChars_head_not_ws (by rw [hT]; rfl)
    by_contra hcontra
    simp only [Bool.not_eq_false, List.all_eq_true] at hcontra
    have := hcontra a (List.mem_cons_self a t)
    rw [ha] at this
    exact Bool.false_ne_true this

/-- Characterization of a successful `sanitizeExtensionId`. -/
theorem sanitizeExtensionId_ok {e s : String} (h : sanitizeExtensionId e = .ok s) :
    s.data = (replaceDanger (stripTraversalOnce e.data)).take 255 ∧ s.data ≠ [] := by
  unfold sanitizeExtensionId at h
  by_cases he : e = ""
  · rw [if_pos he] at h
    exact absurd h (by simp)
  · rw [if_neg he] at h
    by_cases hempty : (replaceDanger (stripTraversalOnce e.data)).take 255 = []
    · rw [if_pos hempty] at h
      exact absurd h (by simp)
    · rw [if_neg hempty] at h
      have : s = ⟨(replaceDanger (stripTraversalOnce e.data)).take 255⟩ := by
        injection h with h2
        exact h2.symm
      rw [this]
      exact ⟨rfl, hempty⟩

/-- Characterization of a successful `validateExtensionId`. -/
theorem validateExtensionId_ok {e v : String} (h : validateExtensionId e = .ok v) :
    ∃ s : String, sanitizeExtensionId e = .ok s ∧ v.data = trimChars s.data ∧
      trimChars s.data ≠ [] ∧ (trimChars s.data).head? ≠ some '.' := by
  unfold validateExtensionId at h
  cases hs : sanitizeExtensionId e with
  | error msg =>
    rw [hs] at h
    simp only [Bind.bind, Except.bind] at h
    exact Except.noConfusion h
  | ok s =>
    rw [hs] at h
    refine ⟨s, rfl, ?_⟩
    simp only [Bind.bind, Except.bind] at h
    by_cases h1 : (trimChars s.data).length < 1
    · rw [if_pos h1] at h
      exact absurd h (by simp)
    · rw [if_neg h1] at h
      by_cases h2 : s.data.all isWsChar
      · rw [if_pos h2] at h
        exact absurd h (by simp)
      · rw [if_neg h2] at h
        by_cases h3 : (trimChars s.data).head? = some '.'
        · rw [if_pos h3] at h
          exact absurd h (by simp)
        · rw [if_neg h3] at h
          have hv : v = ⟨trimChars s.data⟩ := by
            injection h with h4
            exact h4.symm
          refine ⟨by rw [hv], ?_, h3⟩
          intro hnil
          rw [hnil] at h1
          exact h1 (by simp)

/-- Every character of a validated token is filename-safe. -/
theorem validateExtensionId_ok_safe {e v : String} (h : validateExtensionId e = .ok v) :
    ∀ c ∈ v.data, c ∉ dangerChars := by
  obtain ⟨s, hs, hv, _, _⟩ := validateExtensionId_ok h
  intro c hc
  rw [hv] at hc
  have hc2 : c ∈ s.data := (trimChars_sublist s.data).mem hc
  have hdata := (sanitizeExtensionId_ok hs).1
  rw [hdata] at hc2
  have hc3 : c ∈ replaceDanger (stripTraversalOnce e.data) :=
    (List.take_sublist _ _).mem hc2
  exact replaceDanger_not_mem_danger hc3

/-- A validated token re-validates to itself: `validate` is idempotent. -/
theorem validateExtensionId_idem {e v : String} (h : validateExtensionId e = .ok v) :
    validateExtensionId v = .ok v := by
  obtain ⟨s, hs, hv, hne, hdot⟩ := validateExtensionId_ok h
  have hsafe := validateExtensionId_ok_safe h
  have hvne : v.data ≠ [] := by rw [hv]; exact hne
  -- the second sanitize pass is the identity on `v`
  have hslash : ('/' : Char) ∉ v.data := fun hmem => hsafe _ hmem (by decide)
  have hbslash : ('\\' : Char) ∉ v.data := fun hmem => hsafe _ hmem (by decide)
  have hstrip : stripTraversalOnce v.data = v.data := by
    unfold stripTraversalOnce
    rw [stripDotDot_eq_self_of_not_mem '/' v.data hslash,
      stripDotDot_eq_self_of_not_mem '\\' v.data hbslash]
  have hreplace : replaceDanger v.data = v.data := replaceDanger_eq_self hsafe
  have hlen : v.data.length ≤ 255 := by
    rw [hv]
    have h1 : (trimChars s.data).length ≤ s.data.length :=
      (trimChars_sublist s.data).length_le
    have h2 := (sanitizeExtensionId_ok hs).1
    have h3 : s.data.length ≤ 255 := by
      rw [h2, List.length_take]
      omega
    omega
  have htake : v.data.take 255 = v.data := List.take_of_length_le hlen
  have hsanv : sanitizeExtensionId v = .ok v := by
    unfold sanitizeExtensionId
    rw [if_neg (fun hcontra => hvne (by rw [hcontra]))]
    rw [hstrip, hreplace, htake, if_neg hvne]
  have htrimv : trimChars v.data = v.data := by
    rw [hv]
    exact trimChars_idem s.data
  unfold validateExtensionId
  rw [hsanv]
  simp only [Bind.bind, Except.bind]
  rw [htrimv]
  rw [if_neg (by
    intro hcontra
    exact hvne (List.length_eq_zero.mp (by omega)))]
  rw [if_neg (by
    rw [show v.data.all isWsChar = (trimChars s.data).all isWsChar by rw [hv]]
    rw [trimChars_not_all_ws hne]
    exact Bool.false_ne_true)]
  rw [if_neg (by rw [hv]; exact hdot)]

/-! ## Numeral lemmas: integer JavaScript numbers survive the codec -/

theorem isDigit_digitChar {k : Nat} (h : k < 10) : isDigit (digitChar k) = true := by
  interval_cases k <;> decide

theorem digitChar_val {k : Nat} (h : k < 10) : (digitChar k).toNat - 48 = k := by
  interval_cases k <;> decide

theorem natDigits_ne_nil (n : Nat) : natDigits n ≠ [] := by
  rw [natDigits]
  split
  · simp
  · simp

theorem natDigits_all_digit (n : Nat) : ∀ c ∈ natDigits n, isDigit c = true := by
  induction n using Nat.strong_induction_on with
  | _ n ih =>
    rw [natDigits]
    split
    · intro c hc
      simp only [List.mem_singleton] at hc
      rw [hc]
      exact isDigit_digitChar (by omega)
    · intro c hc
      rcases List.mem_append.mp hc with h1 | h2
      · exact ih (n / 10) (Nat.div_lt_self (by omega) (by omega)) c h1
      · simp only [List.mem_singleton] at h2
        rw [h2]
        exact isDigit_digitChar (Nat.mod_lt _ (by omega))

/-- Reading the decimal digits of `n` back recovers `n`. -/
theorem digitsToNat_natDigits (n : Nat) : digitsToNat (natDigits n) = n := by
  induction n using Nat.strong_induction_on with
  | _ n ih =>
    rw [natDigits]
    split
    · show List.foldl _ 0 [digitChar n] = n
      simp only [List.foldl_cons, List.foldl_nil]
      rw [digitChar_val (by omega)]
      omega
    · rename_i hge
      unfold digitsToNat
      rw [List.foldl_append]
      have ihdiv := ih (n / 10) (Nat.div_lt_self (by omega) (by omega))
      unfold digitsToNat at ihdiv
      rw [ihdiv]
      simp only [List.foldl_cons, List.foldl_nil]
      rw [digitChar_val (Nat.mod_lt _ (by omega))]
      omega

theorem not_jsonWs_of_digit {c : Char} (h : isDigit c = true) : isJsonWs c = false := by
  unfold isDigit at h
  simp only [Bool.and_eq_true, decide_eq_true_eq] at h
  unfold isJsonWs
  simp only [Bool.or_eq_false_iff, decide_eq_false_iff_not]
  refine ⟨⟨⟨?_, ?_⟩, ?_⟩, ?_⟩ <;> intro hEq <;>
    (first
      | (have h2 := congrArg Char.toNat hEq
         rw [show (' ' : Char).toNat = 32 from rfl] at h2
         omega)
      | (have h2 := congrArg Char.toNat hEq
         rw [show ('\t' : Char).toNat = 9 from rfl] at h2
         omega)
      | (have h2 := congrArg Char.toNat hEq
         rw [show ('\n' : Char).toNat = 10 from rfl] at h2
         omega)
      | (have h2 := congrArg Char.toNat hEq
         rw [show ('\r' : Char).toNat = 13 from rfl] at h2
         omega))

theorem skipWs_of_head_digit {c : Char} (rest : List Char) (h : isDigit c = true) :
    skipWs (c :: rest) = c :: rest := by
  unfold skipWs
  rw [List.dropWhile_cons, if_neg (by rw [not_jsonWs_of_digit h]; exact Bool.false_ne_true)]

/-- A digit is not `]` (needed to step the array parser past a numeral). -/
theorem digit_ne_rbracket {c : Char} (h : isDigit c = true) : c ≠ ']' := by
  intro hEq
  unfold isDigit at h
  simp only [Bool.and_eq_true, decide_eq_true_eq] at h
  have h2 := congrArg Char.toNat hEq
  rw [show (']' : Char).toNat = 93 from rfl] at h2
  omega

/-- `skipWs` is the identity on input led by a non-whitespace character. -/
theorem skipWs_cons_of_not_ws {c : Char} (l : List Char) (h : isJsonWs c = false) :
    skipWs (c :: l) = c :: l := by
  unfold skipWs
  rw [List.dropWhile_cons, if_neg (by rw [h]; exact Bool.false_ne_true)]

/-- `takeWhile`/`dropWhile` split an append exactly at the boundary when the
whole first part satisfies the predicate and the head of the second part
does not. -/
theorem takeWhile_append_boundary {α : Type} (p : α → Bool) (l₁ l₂ : List α)
    (h1 : ∀ c ∈ l₁, p c = true) (h2 : ∀ c, l₂.head? = some c → p c = false) :
    (l₁ ++ l₂).takeWhile p = l₁ ∧ (l₁ ++ l₂).dropWhile p = l₂ := by
  induction l₁ with
  | nil =>
    cases l₂ with
    | nil => exact ⟨rfl, rfl⟩
    | cons c r =>
      constructor
      · rw [List.nil_append, List.takeWhile_cons,
          if_neg (by rw [h2 c rfl]; exact Bool.false_ne_true)]
      · rw [List.nil_append, List.dropWhile_cons,
          if_neg (by rw [h2 c rfl]; exact Bool.false_ne_true)]
  | cons a t ih =>
    have ha := h1 a (List.mem_cons_self a t)
    have iht := ih fun c hc => h1 c (List.mem_cons_of_mem a hc)
    constructor
    · rw [List.cons_append, List.takeWhile_cons, if_pos ha, iht.1]
    · rw [List.cons_append, List.dropWhile_cons, if_pos ha, iht.2]

/-- The input after a numeral must not extend it: its head (if any) is not a
digit, a decimal point or an exponent marker. -/
def numBoundary (rest : List Char) : Prop :=
  ∀ c, rest.head? = some c → isDigit c = false ∧ c ≠ '.' ∧ c ≠ 'e' ∧ c ≠ 'E'

theorem numBoundary_nil : numBoundary [] := fun _ hc => Option.noConfusion hc

theorem numBoundary_cons (c : Char) (r : List Char) (h1 : isDigit c = false)
    (h2 : c ≠ '.') (h3 : c ≠ 'e') (h4 : c ≠ 'E') : numBoundary (c :: r) := by
  intro d hd
  simp only [List.head?_cons, Option.some.injEq] at hd
  subst hd
  exact ⟨h1, h2, h3, h4⟩

/-- No fraction part at a numeral boundary. -/
theorem parseFracPart_boundary (rest : List Char) (h : numBoundary rest) :
    parseFracPart rest = some ([], rest) := by
  cases rest with
  | nil => rfl
  | cons c r =>
    unfold parseFracPart
    dsimp only
    rw [if_neg (h c rfl).2.1]

/-- No exponent part at a numeral boundary. -/
theorem parseExpPart_boundary (rest : List Char) (h : numBoundary rest) :
    parseExpPart rest = some (0, [], rest) := by
  cases rest with
  | nil => rfl
  | cons c r =>
    unfold parseExpPart
    dsimp only
    rw [if_neg (by
      intro hor
      rcases hor with he | hE
      · exact (h c rfl).2.2.1 he
      · exact (h c rfl).2.2.2 hE)]

/-- A numeral with no fraction and no exponent is the signed digit value. -/
theorem mkJsonNumber_int (neg : Bool) (ds lit : List Char) :
    mkJsonNumber neg ds [] 0 lit = .jnum (intSign neg (digitsToNat ds)) := by
  unfold mkJsonNumber
  rw [if_pos (by decide)]
  rw [List.append_nil]
  norm_num

/-- The number grammar on a pure digit run followed by a boundary. -/
theorem parseUnsignedJsonNumber_digitRun (neg : Bool) (l rest : List Char)
    (hne : l ≠ []) (hall : ∀ c ∈ l, isDigit c = true) (hrest : numBoundary rest) :
    parseUnsignedJsonNumber neg (l ++ rest) =
      some (.jnum (intSign neg (digitsToNat l)), rest) := by
  obtain ⟨htake, hdrop⟩ :=
    takeWhile_append_boundary isDigit l rest hall fun c hc => (hrest c hc).1
  unfold parseUnsignedJsonNumber
  rw [htake, hdrop, if_neg hne]
  simp only [parseFracPart_boundary rest hrest, parseExpPart_boundary rest hrest]
  rw [mkJsonNumber_int]

/-- Dispatch: a leading digit enters the number grammar. -/
theorem parseJsonValue_digitHead (fuel : Nat) (c : Char) (l : List Char)
    (hc : isDigit c = true) :
    parseJsonValue (fuel + 1) (c :: l) = parseUnsignedJsonNumber false (c :: l) := by
  rw [parseJsonValue, skipWs_of_head_digit l hc]
  dsimp only
  rw [if_pos hc]

/-- Dispatch: a leading minus sign enters the number grammar negated. -/
theorem parseJsonValue_minus (fuel : Nat) (l : List Char) :
    parseJsonValue (fuel + 1) ('-' :: l) = parseUnsignedJsonNumber true l := by
  rw [parseJsonValue]
  rfl

/-- Dispatch: the `null` literal. -/
theorem parseJsonValue_null (fuel : Nat) (rest : List Char) :
    parseJsonValue (fuel + 1) ('n' :: 'u' :: 'l' :: 'l' :: rest) = some (.jnull, rest) := by
  rw [parseJsonValue]
  rfl

/-- Dispatch: the `true` literal. -/
theorem parseJsonValue_true (fuel : Nat) (rest : List Char) :
    parseJsonValue (fuel + 1) ('t' :: 'r' :: 'u' :: 'e' :: rest) = some (.jbool true, rest) := by
  rw [parseJsonValue]
  rfl

/-- Dispatch: the `false` literal. -/
theorem parseJsonValue_false (fuel : Nat) (rest : List Char) :
    parseJsonValue (fuel + 1) ('f' :: 'a' :: 'l' :: 's' :: 'e' :: rest) =
      some (.jbool false, rest) := by
  rw [parseJsonValue]
  rfl

/-- Dispatch: a leading quote enters the string literal body. -/
theorem parseJsonValue_quote (fuel : Nat) (l : List Char) :
    parseJsonValue (fuel + 1) ('"' :: l) =
      (parseStringBody l).map fun p => (.jstr ⟨p.1⟩, p.2) := by
  rw [parseJsonValue]
  rfl

/-- Dispatch: a leading bracket enters the array grammar. -/
theorem parseJsonValue_lbracket (fuel : Nat) (l : List Char) :
    parseJsonValue (fuel + 1) ('[' :: l) =
      (match skipWs l with
      | [] => none
      | d :: r =>
        if d = ']' then some (.jarr [], r)
        else (parseJsonElems fuel (d :: r)).map fun p => (.jarr p.1, p.2)) := by
  rw [parseJsonValue]
  rfl

/-- Dispatch: a leading brace enters the object grammar. -/
theorem parseJsonValue_lbrace (fuel : Nat) (l : List Char) :
    parseJsonValue (fuel + 1) (openBrace :: l) =
      (match skipWs l with
      | d :: r =>
        if d = closeBrace then some (.jobj [], r)
        else (parseJsonFields fuel (d :: r)).map fun p => (.jobj p.1, p.2)
      | [] => none) := by
  rw [parseJsonValue]
  rfl

/-- `parseJsonValue` on `String(n)` in front of a boundary consumes exactly
the numeral and yields the integer `n`. -/
theorem parseJsonValue_intLit (fuel : Nat) (n : Int) (rest : List Char)
    (hrest : numBoundary rest) :
    parseJsonValue (fuel + 1) ((intToString n).data ++ rest) = some (.jnum n, rest) := by
  unfold intToString
  by_cases hn : n < 0
  · rw [if_pos hn]
    rw [show ((⟨'-' :: natDigits n.natAbs⟩ : String).data ++ rest) =
        '-' :: (natDigits n.natAbs ++ rest) from rfl]
    rw [parseJsonValue_minus]
    rw [parseUnsignedJsonNumber_digitRun true _ rest (natDigits_ne_nil _)
      (natDigits_all_digit _) hrest]
    rw [digitsToNat_natDigits]
    rw [show intSign true n.natAbs = n from by
      unfold intSign
      rw [if_pos rfl]
      simp only [Int.ofNat_eq_natCast]
      omega]
  · rw [if_neg hn]
    obtain ⟨c, t, hL⟩ : ∃ c t, natDigits n.natAbs = c :: t := by
      cases hL : natDigits n.natAbs with
      | nil => exact absurd hL (natDigits_ne_nil _)
      | cons c t => exact ⟨c, t, rfl⟩
    rw [show ((⟨natDigits n.natAbs⟩ : String).data ++ rest) =
        natDigits n.natAbs ++ rest from rfl]
    rw [hL, List.cons_append]
    rw [parseJsonValue_digitHead fuel c _
      (natDigits_all_digit n.natAbs c (by rw [hL]; exact List.mem_cons_self c t))]
    rw [← List.cons_append, ← hL]
    rw [parseUnsignedJsonNumber_digitRun false _ rest (natDigits_ne_nil _)
      (natDigits_all_digit _) hrest]
    rw [digitsToNat_natDigits]
    rw [show intSign false n.natAbs = n from by
      unfold intSign
      rw [if_neg Bool.false_ne_true]
      simp only [Int.ofNat_eq_natCast]
      omega]

/-- `JSON.parse(String(n))` recovers an integer JavaScript number `n`. -/
theorem jsonParse_intToString (n : Int) : jsonParse (intToString n) = some (.jnum n) := by
  unfold jsonParse
  have h := parseJsonValue_intLit ((intToString n).data.length) n [] numBoundary_nil
  rw [List.append_nil] at h
  rw [h]
  rfl

/-! ## Stringify/parse round trip on the integer-valued fragment -/

theorem jsonIntValued_jarr (es : List JValue) :
    jsonIntValued (.jarr es) = jsonIntValuedList es := by
  rw [jsonIntValued]

theorem jsonIntValued_jobj (fs : List (String × JValue)) :
    jsonIntValued (.jobj fs) = jsonIntValuedFields fs := by
  rw [jsonIntValued]

theorem jsonIntValuedList_cons (v : JValue) (vs : List JValue) :
    jsonIntValuedList (v :: vs) = (jsonIntValued v && jsonIntValuedList vs) := by
  rw [jsonIntValuedList]

theorem jsonIntValuedFields_cons (k : String) (v : JValue) (fs : List (String × JValue)) :
    jsonIntValuedFields ((k, v) :: fs) = (jsonIntValued v && jsonIntValuedFields fs) := by
  rw [jsonIntValuedFields]

/-- The escaped body of a JSON string literal (without the quotes). -/
def escBody (l : List Char) : List Char :=
  l.foldr (fun c acc => escapeJsonChar c ++ acc) []

theorem escFold_append (l acc : List Char) :
    l.foldr (fun c acc => escapeJsonChar c ++ acc) acc = escBody l ++ acc := by
  induction l with
  | nil => rfl
  | cons c t ih =>
    rw [List.foldr_cons, ih]
    show escapeJsonChar c ++ (escBody t ++ acc) = escBody (c :: t) ++ acc
    rw [show escBody (c :: t) = escapeJsonChar c ++ escBody t from rfl, List.append_assoc]

theorem strData_append (a b : String) : (a ++ b).data = a.data ++ b.data := rfl

theorem stringify_jstr (s : String) :
    (jsonStringify (.jstr s)).data = '"' :: (escBody s.data ++ ['"']) := by
  rw [jsonStringify]
  show '"' :: s.data.foldr (fun c acc => escapeJsonChar c ++ acc) ['"'] = _
  rw [escFold_append]

theorem stringify_jarr (es : List JValue) :
    (jsonStringify (.jarr es)).data = '[' :: ((stringifyElems es).data ++ [']']) := by
  rw [jsonStringify, strData_append, strData_append]
  rfl

theorem stringify_jobj (fs : List (String × JValue)) :
    (jsonStringify (.jobj fs)).data =
      openBrace :: ((stringifyFields fs).data ++ [closeBrace]) := by
  rw [jsonStringify, strData_append, strData_append]
  rfl

theorem stringifyElems_one (v : JValue) :
    (stringifyElems [v]).data = (jsonStringify v).data := by
  rw [stringifyElems]

theorem stringifyElems_cons (v : JValue) (vs : List JValue) (hne : vs ≠ []) :
    (stringifyElems (v :: vs)).data =
      (jsonStringify v).data ++ ',' :: (stringifyElems vs).data := by
  cases vs with
  | nil => exact absurd rfl hne
  | cons w ws =>
    rw [stringifyElems]
    · simp only [strData_append, List.append_assoc]
      rfl
    · intro hcontra
      exact List.noConfusion hcontra

theorem stringifyFields_one (k : String) (v : JValue) :
    (stringifyFields [(k, v)]).data =
      (jsonStringify (.jstr k)).data ++ ':' :: (jsonStringify v).data := by
  rw [stringifyFields]
  simp only [strData_append, List.append_assoc]
  rfl

theorem stringifyFields_cons (k : String) (v : JValue) (fs : List (String × JValue))
    (hne : fs ≠ []) :
    (stringifyFields ((k, v) :: fs)).data =
      (jsonStringify (.jstr k)).data ++
        ':' :: ((jsonStringify v).data ++ ',' :: (stringifyFields fs).data) := by
  cases fs with
  | nil => exact absurd rfl hne
  | cons g gs =>
    rw [stringifyFields]
    · simp only [strData_append, List.append_assoc]
      rfl
    · intro hcontra
      exact List.noConfusion hcontra

/-- Stringified output is nonempty and starts with a character that is not
whitespace and not `]` (needed to step the array parser). -/
theorem stringify_head (v : JValue) (hfrag : jsonIntValued v = true) :
    ∃ c t, (jsonStringify v).data = c :: t ∧ isJsonWs c = false ∧ c ≠ ']' := by
  cases v with
  | jnull =>
    refine ⟨'n', ['u', 'l', 'l'], ?_, by decide, by decide⟩
    rw [jsonStringify]
  | jbool b =>
    cases b with
    | true =>
      refine ⟨'t', ['r', 'u', 'e'], ?_, by decide, by decide⟩
      rw [jsonStringify]
    | false =>
      refine ⟨'f', ['a', 'l', 's', 'e'], ?_, by decide, by decide⟩
      rw [jsonStringify]
  | jnum n =>
    have hd : (jsonStringify (JValue.jnum n)).data = (intToString n).data := by
      rw [jsonStringify]
    by_cases hn : n < 0
    · refine ⟨'-', natDigits n.natAbs, ?_, by decide, by decide⟩
      rw [hd]
      unfold intToString
      rw [if_pos hn]
    · obtain ⟨c, t, hL⟩ : ∃ c t, natDigits n.natAbs = c :: t := by
        cases hL : natDigits n.natAbs with
        | nil => exact absurd hL (natDigits_ne_nil _)
        | cons c t => exact ⟨c, t, rfl⟩
      have hc : isDigit c = true :=
        natDigits_all_digit n.natAbs c (by rw [hL]; exact List.mem_cons_self c t)
      refine ⟨c, t, ?_, not_jsonWs_of_digit hc, digit_ne_rbracket hc⟩
      rw [hd]
      unfold intToString
      rw [if_neg hn]
      exact hL
  | jdec lit => exact absurd hfrag (by simp [jsonIntValued])
  | jstr s =>
    exact ⟨'"', escBody s.data ++ ['"'], stringify_jstr s, by decide, by decide⟩
  | jarr es =>
    exact ⟨'[', (stringifyElems es).data ++ [']'], stringify_jarr es, by decide, by decide⟩
  | jobj fs =>
    exact ⟨openBrace, (stringifyFields fs).data ++ [closeBrace], stringify_jobj fs,
      by decide, by decide⟩

theorem stringify_length_pos (v : JValue) (hfrag : jsonIntValued v = true) :
    1 ≤ (jsonStringify v).data.length := by
  obtain ⟨c, t, hd, -, -⟩ := stringify_head v hfrag
  rw [hd]
  simp

theorem stringify_ne_empty (v : JValue) (hfrag : jsonIntValued v = true) :
    jsonStringify v ≠ "" := by
  obtain ⟨c, t, hd, -, -⟩ := stringify_head v hfrag
  intro hcontra
  rw [hcontra] at hd
  exact List.noConfusion hd

theorem stringify_jstr_length (s : String) : 2 ≤ (jsonStringify (.jstr s)).data.length := by
  rw [stringify_jstr]
  simp only [List.length_cons, List.length_append, List.length_nil]
  omega

/-- The head of a stringified nonempty element list is the head of its first
element's stringification. -/
theorem stringifyElems_head (v : JValue) (vs : List JValue) (hv : jsonIntValued v = true) :
    ∃ c t, (stringifyElems (v :: vs)).data = c :: t ∧ isJsonWs c = false ∧ c ≠ ']' := by
  obtain ⟨c, t, hd, hws, hnb⟩ := stringify_head v hv
  cases vs with
  | nil =>
    refine ⟨c, t, ?_, hws, hnb⟩
    rw [stringifyElems_one, hd]
  | cons w ws =>
    refine ⟨c, t ++ ',' :: (stringifyElems (w :: ws)).data, ?_, hws, hnb⟩
    rw [stringifyElems_cons v (w :: ws) (fun hcontra => List.noConfusion hcontra), hd]
    rfl

/-- A stringified nonempty field list starts with the opening quote of its
first key. -/
theorem stringifyFields_head (k : String) (v : JValue) (fs : List (String × JValue)) :
    ∃ t, (stringifyFields ((k, v) :: fs)).data = '"' :: t := by
  cases fs with
  | nil =>
    refine ⟨(escBody k.data ++ ['"']) ++ ':' :: (jsonStringify v).data, ?_⟩
    rw [stringifyFields_one, stringify_jstr]
    rfl
  | cons g gs =>
    refine ⟨(escBody k.data ++ ['"']) ++
      ':' :: ((jsonStringify v).data ++ ',' :: (stringifyFields (g :: gs)).data), ?_⟩
    rw [stringifyFields_cons k v (g :: gs) (fun hcontra => List.noConfusion hcontra),
      stringify_jstr]
    rfl

/-- Escaping inside `JSON.stringify` string output inverts through
`parseStringBody`. -/
theorem parseStringBody_escaped (e : Char) (l : List Char) :
    parseStringBody ('\\' :: e :: l) =
      (parseStringBody l).map fun p => (unescapeChar e :: p.1, p.2) := rfl

theorem parseStringBody_plain (c : Char) (l : List Char) (h1 : c ≠ '"') (h2 : c ≠ '\\') :
    parseStringBody (c :: l) = (parseStringBody l).map fun p => (c :: p.1, p.2) := by
  rw [parseStringBody.eq_def]
  dsimp only
  rw [if_neg h1, if_neg h2]

theorem parseStringBody_escBody (l rest : List Char) :
    parseStringBody (escBody l ++ '"' :: rest) = some (l, rest) := by
  induction l with
  | nil =>
    show parseStringBody ('"' :: rest) = some ([], rest)
    rw [parseStringBody.eq_def]
    dsimp only
    rw [if_pos rfl]
  | cons c t ih =>
    show parseStringBody ((escapeJsonChar c ++ escBody t) ++ '"' :: rest) = some (c :: t, rest)
    rw [List.append_assoc]
    by_cases h1 : c = '"'
    · subst h1
      rw [show escapeJsonChar '"' = ['\\', '"'] from rfl]
      rw [show (['\\', '"'] ++ (escBody t ++ '"' :: rest)) =
          '\\' :: '"' :: (escBody t ++ '"' :: rest) from rfl]
      rw [parseStringBody_escaped, ih]
      rfl
    · by_cases h2 : c = '\\'
      · subst h2
        rw [show escapeJsonChar '\\' = ['\\', '\\'] from rfl]
        rw [show (['\\', '\\'] ++ (escBody t ++ '"' :: rest)) =
            '\\' :: '\\' :: (escBody t ++ '"' :: rest) from rfl]
        rw [parseStringBody_escaped, ih]
        rfl
      · by_cases h3 : c = '\n'
        · subst h3
          rw [show escapeJsonChar '\n' = ['\\', 'n'] from rfl]
          rw [show (['\\', 'n'] ++ (escBody t ++ '"' :: rest)) =
              '\\' :: 'n' :: (escBody t ++ '"' :: rest) from rfl]
          rw [parseStringBody_escaped, ih]
          rfl
        · by_cases h4 : c = '\t'
          · subst h4
            rw [show escapeJsonChar '\t' = ['\\', 't'] from rfl]
            rw [show (['\\', 't'] ++ (escBody t ++ '"' :: rest)) =
                '\\' :: 't' :: (escBody t ++ '"' :: rest) from rfl]
            rw [parseStringBody_escaped, ih]
            rfl
          · by_cases h5 : c = '\r'
            · subst h5
              rw [show escapeJsonChar '\r' = ['\\', 'r'] from rfl]
              rw [show (['\\', 'r'] ++ (escBody t ++ '"' :: rest)) =
                  '\\' :: 'r' :: (escBody t ++ '"' :: rest) from rfl]
              rw [parseStringBody_escaped, ih]
              rfl
            · rw [show escapeJsonChar c = [c] from by
                unfold escapeJsonChar
                rw [if_neg h1, if_neg h2, if_neg h3, if_neg h4, if_neg h5]]
              rw [show ([c] ++ (escBody t ++ '"' :: rest)) =
                  c :: (escBody t ++ '"' :: rest) from rfl]
              rw [parseStringBody_plain c _ h1 h2, ih]
              rfl

/-- One `"key": value` step of the object-field parser on stringified
output. -/
theorem parseJsonFields_step (f : Nat) (k : String) (R : List Char) :
    parseJsonFields (f + 1) ((jsonStringify (.jstr k)).data ++ ':' :: R) =
      (parseJsonValue f R).bind fun p =>
        match skipWs p.2 with
        | ',' :: r5 => (parseJsonFields f r5).bind fun q => some ((k, p.1) :: q.1, q.2)
        | d :: r5 => if d = closeBrace then some ([(k, p.1)], r5) else none
        | [] => none := by
  rw [stringify_jstr, List.cons_append, List.append_assoc, List.singleton_append]
  rw [parseJsonFields]
  show (parseStringBody (escBody k.data ++ '"' :: ':' :: R)).bind
      (fun x =>
        match skipWs x.2 with
        | ':' :: r3 =>
          (parseJsonValue f r3).bind fun p =>
            match skipWs p.2 with
            | ',' :: r5 => (parseJsonFields f r5).bind fun q => some ((⟨x.1⟩, p.1) :: q.1, q.2)
            | d :: r5 => if d = closeBrace then some ([(⟨x.1⟩, p.1)], r5) else none
            | [] => none
        | _ => none) = _
  rw [parseStringBody_escBody]
  rfl

/-- Printer/parser round trip on the integer-valued fragment, by strong
induction on the parser fuel: a stringified value parses back to itself in
front of any boundary continuation, and likewise element and field lists in
front of their closing bracket. -/
theorem parse_stringify_all (fuel : Nat) :
    (∀ (v : JValue) (rest : List Char), jsonIntValued v = true →
      numBoundary rest → (jsonStringify v).data.length < fuel →
      parseJsonValue fuel ((jsonStringify v).data ++ rest) = some (v, rest)) ∧
    (∀ (es : List JValue) (rest : List Char), jsonIntValuedList es = true → es ≠ [] →
      (stringifyElems es).data.length + 1 < fuel →
      parseJsonElems fuel ((stringifyElems es).data ++ ']' :: rest) = some (es, rest)) ∧
    (∀ (fs : List (String × JValue)) (rest : List Char),
      jsonIntValuedFields fs = true → fs ≠ [] →
      (stringifyFields fs).data.length + 1 < fuel →
      parseJsonFields fuel ((stringifyFields fs).data ++ closeBrace :: rest) =
        some (fs, rest)) := by
  induction fuel using Nat.strong_induction_on with
  | _ fuel ih =>
    cases fuel with
    | zero =>
      exact ⟨fun v rest _ _ h3 => absurd h3 (by omega),
             fun es rest _ _ h3 => absurd h3 (by omega),
             fun fs rest _ _ h3 => absurd h3 (by omega)⟩
    | succ f =>
      have ihV := (ih f (Nat.lt_succ_self f)).1
      have ihE := (ih f (Nat.lt_succ_self f)).2.1
      have ihF := (ih f (Nat.lt_succ_self f)).2.2
      refine ⟨?_, ?_, ?_⟩
      · intro v rest hfrag hrest hlen
        cases v with
        | jnull =>
          rw [show (jsonStringify JValue.jnull).data = ['n', 'u', 'l', 'l'] from by
            rw [jsonStringify]]
          exact parseJsonValue_null f rest
        | jbool b =>
          cases b with
          | true =>
            rw [show (jsonStringify (JValue.jbool true)).data = ['t', 'r', 'u', 'e'] from by
              rw [jsonStringify]]
            exact parseJsonValue_true f rest
          | false =>
            rw [show (jsonStringify (JValue.jbool false)).data =
                ['f', 'a', 'l', 's', 'e'] from by
              rw [jsonStringify]]
            exact parseJsonValue_false f rest
        | jnum n =>
          rw [show (jsonStringify (JValue.jnum n)).data = (intToString n).data from by
            rw [jsonStringify]]
          exact parseJsonValue_intLit f n rest hrest
        | jdec lit => exact absurd hfrag (by simp [jsonIntValued])
        | jstr s =>
          rw [stringify_jstr, List.cons_append, parseJsonValue_quote,
            List.append_assoc, List.singleton_append, parseStringBody_escBody]
          rfl
        | jarr es =>
          rw [stringify_jarr, List.cons_append, parseJsonValue_lbracket,
            List.append_assoc, List.singleton_append]
          cases es with
          | nil =>
            rw [show (stringifyElems ([] : List JValue)).data = [] from by
              rw [stringifyElems]]
            rfl
          | cons w ws =>
            have hfragL : jsonIntValuedList (w :: ws) = true := by
              rw [← jsonIntValued_jarr]
              exact hfrag
            have hfw : jsonIntValued w = true := by
              have h := hfragL
              rw [jsonIntValuedList_cons, Bool.and_eq_true] at h
              exact h.1
            have hlen' : (stringifyElems (w :: ws)).data.length + 1 < f := by
              rw [stringify_jarr] at hlen
              simp only [List.length_cons, List.length_append, List.length_nil] at hlen
              omega
            obtain ⟨c, t, hdE, hwsE, hnbE⟩ := stringifyElems_head w ws hfw
            rw [hdE, List.cons_append, skipWs_cons_of_not_ws (t ++ ']' :: rest) hwsE]
            dsimp only
            rw [if_neg hnbE]
            rw [← List.cons_append, ← hdE]
            rw [ihE (w :: ws) rest hfragL (fun hcontra => List.noConfusion hcontra) hlen']
            rfl
        | jobj fs =>
          rw [stringify_jobj, List.cons_append, parseJsonValue_lbrace,
            List.append_assoc, List.singleton_append]
          cases fs with
          | nil =>
            rw [show (stringifyFields ([] : List (String × JValue))).data = [] from by
              rw [stringifyFields]]
            rfl
          | cons g gs =>
            obtain ⟨k, v⟩ := g
            have hfragF : jsonIntValuedFields ((k, v) :: gs) = true := by
              rw [← jsonIntValued_jobj]
              exact hfrag
            have hlen' : (stringifyFields ((k, v) :: gs)).data.length + 1 < f := by
              rw [stringify_jobj] at hlen
              simp only [List.length_cons, List.length_append, List.length_nil] at hlen
              omega
            obtain ⟨T, hdF⟩ := stringifyFields_head k v gs
            rw [hdF, List.cons_append,
              skipWs_cons_of_not_ws (T ++ closeBrace :: rest) (by decide)]
            dsimp only
            rw [if_neg (by decide)]
            rw [← List.cons_append, ← hdF]
            rw [ihF ((k, v) :: gs) rest hfragF (fun hcontra => List.noConfusion hcontra) hlen']
            rfl
      · intro es rest hfragL hne hlen
        cases es with
        | nil => exact absurd rfl hne
        | cons v vs =>
          have hand : jsonIntValued v = true ∧ jsonIntValuedList vs = true := by
            have h := hfragL
            rw [jsonIntValuedList_cons, Bool.and_eq_true] at h
            exact h
          have hfv1 := hand.1
          have hfv2 := hand.2
          cases vs with
          | nil =>
            rw [stringifyElems_one] at hlen ⊢
            rw [parseJsonElems]
            rw [ihV v (']' :: rest) hfv1
              (numBoundary_cons ']' rest (by decide) (by decide) (by decide) (by decide))
              (by omega)]
            rfl
          | cons w ws =>
            rw [stringifyElems_cons v (w :: ws) (fun hcontra => List.noConfusion hcontra)]
              at hlen
            simp only [List.length_append, List.length_cons] at hlen
            have hpos := stringify_length_pos v hfv1
            rw [stringifyElems_cons v (w :: ws) (fun hcontra => List.noConfusion hcontra),
              List.append_assoc, List.cons_append]
            rw [parseJsonElems]
            rw [ihV v (',' :: ((stringifyElems (w :: ws)).data ++ ']' :: rest)) hfv1
              (numBoundary_cons ',' _ (by decide) (by decide) (by decide) (by decide))
              (by omega)]
            show (parseJsonElems f ((stringifyElems (w :: ws)).data ++ ']' :: rest)).bind
              (fun q => some (v :: q.1, q.2)) = some (v :: w :: ws, rest)
            rw [ihE (w :: ws) rest hfv2 (fun hcontra => List.noConfusion hcontra) (by omega)]
            rfl
      · intro fs rest hfragF hne hlen
        cases fs with
        | nil => exact absurd rfl hne
        | cons g gs =>
          obtain ⟨k, v⟩ := g
          have hand : jsonIntValued v = true ∧ jsonIntValuedFields gs = true := by
            have h := hfragF
            rw [jsonIntValuedFields_cons, Bool.and_eq_true] at h
            exact h
          have hfv1 := hand.1
          have hfv2 := hand.2
          have hjk := stringify_jstr_length k
          cases gs with
          | nil =>
            rw [stringifyFields_one] at hlen
            simp only [List.length_append, List.length_cons] at hlen
            rw [stringifyFields_one, List.append_assoc, List.cons_append]
            rw [parseJsonFields_step]
            rw [ihV v (closeBrace :: rest) hfv1
              (numBoundary_cons closeBrace rest (by decide) (by decide) (by decide) (by decide))
              (by omega)]
            rfl
          | cons g2 gs2 =>
            rw [stringifyFields_cons k v (g2 :: gs2) (fun hcontra => List.noConfusion hcontra)]
              at hlen
            simp only [List.length_append, List.length_cons] at hlen
            rw [stringifyFields_cons k v (g2 :: gs2) (fun hcontra => List.noConfusion hcontra)]
            simp only [List.append_assoc, List.cons_append]
            rw [parseJsonFields_step]
            rw [ihV v (',' :: ((stringifyFields (g2 :: gs2)).data ++ closeBrace :: rest)) hfv1
              (numBoundary_cons ',' _ (by decide) (by decide) (by decide) (by decide))
              (by omega)]
            show (parseJsonFields f
                ((stringifyFields (g2 :: gs2)).data ++ closeBrace :: rest)).bind
              (fun q => some ((k, v) :: q.1, q.2)) = some ((k, v) :: g2 :: gs2, rest)
            rw [ihF (g2 :: gs2) rest hfv2 (fun hcontra => List.noConfusion hcontra) (by omega)]
            rfl

/-- `JSON.parse(JSON.stringify(v))` recovers `v` on the integer-valued
fragment. -/
theorem jsonParse_jsonStringify (v : JValue) (hfrag : jsonIntValued v = true) :
    jsonParse (jsonStringify v) = some v := by
  unfold jsonParse
  have h := (parse_stringify_all ((jsonStringify v).data.length + 1)).1 v [] hfrag
    numBoundary_nil (by omega)
  rw [List.append_nil] at h
  rw [h]
  rfl

/-- For every non-string integer-valued JSON value the stored text is the
`JSON.stringify` form, which is nonempty and decodes back to the value. -/
theorem encode_decode_frag (v : JValue) (hfrag : jsonIntValued v = true)
    (hnotstr : ∀ s, v ≠ JValue.jstr s) :
    encodeValue v ≠ "" ∧ decodeValue (encodeValue v) = v := by
  have hE : encodeValue v = jsonStringify v := by
    cases v with
    | jnull =>
      rw [jsonStringify]
      rfl
    | jbool b =>
      cases b with
      | true =>
        rw [jsonStringify]
        rfl
      | false =>
        rw [jsonStringify]
        rfl
    | jnum n =>
      rw [jsonStringify]
      rfl
    | jdec lit =>
      rw [jsonStringify]
      rfl
    | jstr s => exact absurd rfl (hnotstr s)
    | jarr es => rfl
    | jobj fs => rfl
  rw [hE]
  refine ⟨stringify_ne_empty v hfrag, ?_⟩
  unfold decodeValue
  rw [jsonParse_jsonStringify v hfrag]
  rfl

/-! ## Claim theorems -/

/--
C5 counterexample.  The claim says the sanitizer removes `../` (and the
backslash form) *repeatedly until a fixed point is reached*, so that
`....//` leaves no traversal remnant before the character-replacement step.
The shipped sanitizer (`dist/helpers/utils.js`) does ONE global removal pass:
on `....//` the removal phase leaves exactly `../` — which a second pass
would still shrink (to the empty string), so it is not a fixed point — and
`sanitizeExtensionId` then succeeds with `.._` instead of iterating (the
fixed-point variant would have rejected the input as empty after stripping).
-/
theorem sanitizeExtensionId_not_fixed_point_counterexample :
    stripTraversalOnce ("....//".data) = "../".data ∧
    stripTraversalOnce ("../".data) = [] ∧
    sanitizeExtensionId "....//" = .ok ".._" ∧
    sanitizeExtensionIdLoop "....//" = .error "Extension ID became empty after sanitization" := by
  refine ⟨rfl, rfl, rfl, ?_⟩
  unfold sanitizeExtensionIdLoop
  rw [if_neg (by decide)]
  rw [show stripTraversalLoop ("....//".data) = [] from by
    rw [stripTraversalLoop]
    rw [dif_neg (by decide)]
    rw [stripTraversalLoop]
    rw [dif_neg (by decide)]
    rw [stripTraversalLoop]
    rfl]
  rfl

/--
C5 amended.  The sanitizer removes `../` and the backslash form in a single
global replacement pass each (slash form first); on inputs such as `....//`
a `../` remnant therefore survives the removal phase, but the subsequent
character-replacement step replaces every `/` and `\` with `_`, so the
sanitized output still never contains a path separator (and hence no `../`
or `..\` substring).  (The fixed-point loop described by the spec exists
only in the related-doc variant `sanitizeExtensionIdLoop`.)
-/
theorem sanitizeExtensionId_output_no_separator (e t : String)
    (h : sanitizeExtensionId e = .ok t) :
    ('/' : Char) ∉ t.data ∧ ('\\' : Char) ∉ t.data := by
  have hspec := (sanitizeExtensionId_ok h).1
  constructor <;> intro hmem <;>
    (rw [hspec] at hmem
     exact replaceDanger_not_mem_danger ((List.take_sublist _ _).mem hmem) (by decide))

/-- Witness for the amended C5 theorem at the concrete input `....//`. -/
theorem sanitizeExtensionId_output_no_separator_witness :
    sanitizeExtensionId "....//" = .ok ".._" ∧
    ('/' : Char) ∉ ".._".data ∧ ('\\' : Char) ∉ ".._".data :=
  ⟨rfl, sanitizeExtensionId_output_no_separator "....//" ".._" rfl⟩

/--
C2.  For every Store constructed for extension identifier `e` — through
`DatabaseManager.create` (sql.js variant, which takes no path argument) or
through the better-sqlite3 constructor called with any `dbPath` argument —
the backing file path equals `<cwd>/db/<validate(e)>.db`, and the
caller-supplied path never influences the result.
-/
theorem store_dbPath_contract (cwd dbPathArg extensionId v : String)
    (h : validateExtensionId extensionId = .ok v) :
    DatabaseManager.createDbPath cwd extensionId = .ok (cwd ++ "/db/" ++ v ++ ".db") ∧
    DatabaseManager.constructorDbPath cwd (some dbPathArg) extensionId =
      .ok (cwd ++ "/db/" ++ v ++ ".db") ∧
    DatabaseManager.constructorDbPath cwd (some dbPathArg) extensionId =
      DatabaseManager.constructorDbPath cwd none extensionId := by
  have he : extensionId ≠ "" := by
    intro hcontra
    rw [hcontra] at h
    exact Except.noConfusion
      (show Except.error "Extension ID cannot be empty" = Except.ok v from h)
  have hvne : v ≠ "" := by
    obtain ⟨s, _, hv, hne, _⟩ := validateExtensionId_ok h
    intro hcontra
    apply hne
    rw [← hv, hcontra]
  have hgen : ∀ arg : Option String,
      DatabaseManager.constructorDbPath cwd arg extensionId =
        .ok (cwd ++ "/db/" ++ v ++ ".db") := by
    intro arg
    unfold DatabaseManager.constructorDbPath
    rw [if_neg he, h]
    simp only [Bind.bind, Except.bind]
    rw [if_neg hvne]
  refine ⟨?_, hgen _, (hgen _).trans (hgen none).symm⟩
  unfold DatabaseManager.createDbPath
  rw [if_neg he, h]
  rfl

/-- Witness for C2 at a concrete extension id and a concrete (ignored)
caller-supplied path. -/
theorem store_dbPath_contract_witness :
    validateExtensionId "extA" = .ok "extA" ∧
    DatabaseManager.createDbPath "/st" "extA" = .ok "/st/db/extA.db" ∧
    DatabaseManager.constructorDbPath "/st" (some "/tmp/evil.db") "extA" = .ok "/st/db/extA.db" ∧
    DatabaseManager.constructorDbPath "/st" (some "/tmp/evil.db") "extA" =
      DatabaseManager.constructorDbPath "/st" none "extA" := by
  have h := store_dbPath_contract "/st" "/tmp/evil.db" "extA" "extA" rfl
  exact ⟨rfl, h.1, h.2.1, h.2.2⟩

/-- `close` always leaves the handle closed. -/
theorem close_dbOpen (st : DBState) : (DatabaseManager.close st).dbOpen = false := by
  unfold DatabaseManager.close
  split
  · rfl
  · rename_i hcond
    simp only [Bool.not_eq_true] at hcond
    exact hcond

/-- Every listed operation fails on a store whose handle is closed. -/
theorem operations_fail_of_closed (st : DBState) (id instanceId key : String)
    (name : Option String) (v : JValue) (now : Nat) (h : st.dbOpen = false) :
    (DatabaseManager.getCharacter st id).isOk = false ∧
    (DatabaseManager.deleteCharacter st id).isOk = false ∧
    (DatabaseManager.deleteDataValue st instanceId key).isOk = false ∧
    (DatabaseManager.upsertCharacter st id name now).isOk = false ∧
    (DatabaseManager.upsertData st instanceId key v now).isOk = false := by
  have hnot : (!st.dbOpen) = true := by rw [h]; rfl
  refine ⟨?_, ?_, ?_, ?_, ?_⟩
  · unfold DatabaseManager.getCharacter
    rw [if_pos hnot]
    rfl
  · unfold DatabaseManager.deleteCharacter
    by_cases hid : id = ""
    · rw [if_pos hid]
      rfl
    · rw [if_neg hid, if_pos hnot]
      rfl
  · unfold DatabaseManager.deleteDataValue
    by_cases hik : instanceId = "" ∨ key = ""
    · rw [if_pos hik]
      rfl
    · rw [if_neg hik]
      have hg : DatabaseManager.getDataValue st instanceId key = .error "Database is closed" := by
        unfold DatabaseManager.getDataValue
        rw [if_neg hik, if_pos hnot]
      rw [hg]
      rfl
  · unfold DatabaseManager.upsertCharacter
    rw [if_pos hnot]
    rfl
  · unfold DatabaseManager.upsertData
    rw [if_pos hnot]
    rfl

/--
C8.  After `close()` has completed on a Store, every one of the listed
operations — `getCharacter`, `deleteCharacter`, `deleteDataValue`,
`upsertCharacter`, `upsertData` — fails with an error.  Failed operations
return no successor state in this embedding (`Except.error` carries none),
so the store state and the backing file are left exactly as `close` left
them.
-/
theorem closed_store_all_operations_fail (st : DBState) (id instanceId key : String)
    (name : Option String) (v : JValue) (now : Nat) :
    (DatabaseManager.getCharacter (DatabaseManager.close st) id).isOk = false ∧
    (DatabaseManager.deleteCharacter (DatabaseManager.close st) id).isOk = false ∧
    (DatabaseManager.deleteDataValue (DatabaseManager.close st) instanceId key).isOk = false ∧
    (DatabaseManager.upsertCharacter (DatabaseManager.close st) id name now).isOk = false ∧
    (DatabaseManager.upsertData (DatabaseManager.close st) instanceId key v now).isOk = false :=
  operations_fail_of_closed (DatabaseManager.close st) id instanceId key name v now
    (close_dbOpen st)

/--
C4.  Deleting a character id that does not name an existing character on an
open store returns `false` and performs no write at all: the resulting state
is the input state itself, so the characters, instances and data tables —
including any pre-existing rows whose `character_id` or `instance_id`
reference that id — are unchanged.
-/
theorem deleteCharacter_missing_no_write (st : DBState) (id : String)
    (hopen : st.dbOpen = true) (hid : id ≠ "")
    (habsent : st.characters.find? (fun r => r.id == id) = none) :
    DatabaseManager.deleteCharacter st id = .ok (false, st) := by
  unfold DatabaseManager.deleteCharacter
  rw [if_neg hid]
  rw [if_neg (by rw [hopen]; exact Bool.false_ne_true)]
  rw [habsent]

/-- Witness for C4 at a state that contains a dangling instance and a data
row referencing the missing character id `ghost`: the call returns `false`
and even those referencing rows survive untouched. -/
theorem deleteCharacter_missing_no_write_witness :
    DatabaseManager.deleteCharacter
      ⟨[⟨"char-1", some "Alice", 0, 0⟩],
       [⟨"inst-1", "ghost", none, 1, 1⟩],
       [⟨"inst-1", "hp", "100", 2, 2⟩], true, none⟩ "ghost" =
      .ok (false,
        ⟨[⟨"char-1", some "Alice", 0, 0⟩],
         [⟨"inst-1", "ghost", none, 1, 1⟩],
         [⟨"inst-1", "hp", "100", 2, 2⟩], true, none⟩) :=
  deleteCharacter_missing_no_write
    ⟨[⟨"char-1", some "Alice", 0, 0⟩],
     [⟨"inst-1", "ghost", none, 1, 1⟩],
     [⟨"inst-1", "hp", "100", 2, 2⟩], true, none⟩ "ghost"
    rfl (by decide) rfl

/--
C1.  If `deleteCharacter(id)` returns `true`, then afterwards
`getCharacter(id)` is `null`, `getInstancesByCharacter(id)` is `[]`, and
every instance that belonged to the character before the delete has an empty
data bag: `getData(i)` returns the empty mapping.
-/
theorem deleteCharacter_cascade (st st' : DBState) (id : String)
    (h : DatabaseManager.deleteCharacter st id = .ok (true, st')) :
    DatabaseManager.getCharacter st' id = .ok none ∧
    DatabaseManager.getInstancesByCharacter st' id = .ok [] ∧
    ∀ inst ∈ st.instances, inst.characterId = id →
      DatabaseManager.getData st' inst.id = .ok [] := by
  unfold DatabaseManager.deleteCharacter at h
  by_cases hid : id = ""
  · rw [if_pos hid] at h
    exact Except.noConfusion h
  · rw [if_neg hid] at h
    by_cases hopen : st.dbOpen = true
    · rw [if_neg (by rw [hopen]; exact Bool.false_ne_true)] at h
      cases hfind : st.characters.find? (fun r => r.id == id) with
      | none =>
        rw [hfind] at h
        simp only [Except.ok.injEq, Prod.mk.injEq] at h
        exact absurd h.1 (by decide)
      | some row =>
        rw [hfind] at h
        simp only [Except.ok.injEq, Prod.mk.injEq, true_and] at h
        have hopen' : st'.dbOpen = true := by rw [← h]; exact hopen
        refine ⟨?_, ?_, ?_⟩
        · unfold DatabaseManager.getCharacter
          rw [if_neg (by rw [hopen']; exact Bool.false_ne_true)]
          rw [show st'.characters = st.characters.filter (fun r => !(r.id == id)) from by
            rw [← h]
            rfl]
          rw [find?_filter_not]
        · unfold DatabaseManager.getInstancesByCharacter
          rw [if_neg (by rw [hopen']; exact Bool.false_ne_true)]
          rw [show st'.instances = st.instances.filter (fun i => !(i.characterId == id)) from by
            rw [← h]
            rfl]
          rw [List.filter_filter]
          rw [List.filter_eq_nil_iff.mpr (fun i _ => by
            cases hbeq : i.characterId == id <;> simp [hbeq])]
        · intro inst hmem hcid
          unfold DatabaseManager.getData
          rw [if_neg (by rw [hopen']; exact Bool.false_ne_true)]
          have hdata : st'.data = (st.instances.filter fun i => i.characterId == id).foldl
              (fun acc i => acc.filter fun d => !(d.instanceId == i.id)) st.data := by
            rw [← h]
            rfl
          rw [hdata]
          rw [List.filter_eq_nil_iff.mpr (fun d hd => by
            have hspec := mem_cascade_data_delete _ _ _ hd
            have hinst : inst ∈ st.instances.filter fun i => i.characterId == id :=
              List.mem_filter.mpr ⟨hmem, by rw [hcid]; exact beq_self_eq_true id⟩
            have hne := hspec.2 inst hinst
            simp only [Bool.not_eq_true, beq_eq_false_iff_ne, ne_eq]
            exact hne)]
          rfl
    · rw [if_pos (by
        simp only [Bool.not_eq_true] at hopen
        rw [hopen]
        rfl)] at h
      exact Except.noConfusion h

/-- Witness for C1: a store with one character (`char-1`), one owned
instance (`inst-1`) holding one data row, and one unrelated instance of
another character; after the delete the cascade has emptied exactly the
owned instance's bag. -/
theorem deleteCharacter_cascade_witness :
    DatabaseManager.deleteCharacter
      ⟨[⟨"char-1", none, 0, 0⟩, ⟨"char-2", none, 0, 0⟩],
       [⟨"inst-1", "char-1", none, 1, 1⟩, ⟨"inst-2", "char-2", none, 1, 1⟩],
       [⟨"inst-1", "hp", "100", 2, 2⟩, ⟨"inst-2", "mp", "5", 2, 2⟩], true, none⟩ "char-1" =
      .ok (true,
        ⟨[⟨"char-2", none, 0, 0⟩],
         [⟨"inst-2", "char-2", none, 1, 1⟩],
         [⟨"inst-2", "mp", "5", 2, 2⟩], true,
         some ⟨[⟨"char-2", none, 0, 0⟩],
               [⟨"inst-2", "char-2", none, 1, 1⟩],
               [⟨"inst-2", "mp", "5", 2, 2⟩]⟩⟩) ∧
    DatabaseManager.getCharacter
      ⟨[⟨"char-2", none, 0, 0⟩],
       [⟨"inst-2", "char-2", none, 1, 1⟩],
       [⟨"inst-2", "mp", "5", 2, 2⟩], true,
       some ⟨[⟨"char-2", none, 0, 0⟩],
             [⟨"inst-2", "char-2", none, 1, 1⟩],
             [⟨"inst-2", "mp", "5", 2, 2⟩]⟩⟩ "char-1" = .ok none ∧
    DatabaseManager.getInstancesByCharacter
      ⟨[⟨"char-2", none, 0, 0⟩],
       [⟨"inst-2", "char-2", none, 1, 1⟩],
       [⟨"inst-2", "mp", "5", 2, 2⟩], true,
       some ⟨[⟨"char-2", none, 0, 0⟩],
             [⟨"inst-2", "char-2", none, 1, 1⟩],
             [⟨"inst-2", "mp", "5", 2, 2⟩]⟩⟩ "char-1" = .ok [] ∧
    DatabaseManager.getData
      ⟨[⟨"char-2", none, 0, 0⟩],
       [⟨"inst-2", "char-2", none, 1, 1⟩],
       [⟨"inst-2", "mp", "5", 2, 2⟩], true,
       some ⟨[⟨"char-2", none, 0, 0⟩],
             [⟨"inst-2", "char-2", none, 1, 1⟩],
             [⟨"inst-2", "mp", "5", 2, 2⟩]⟩⟩ "inst-1" = .ok [] := by
  have h := deleteCharacter_cascade
    ⟨[⟨"char-1", none, 0, 0⟩, ⟨"char-2", none, 0, 0⟩],
     [⟨"inst-1", "char-1", none, 1, 1⟩, ⟨"inst-2", "char-2", none, 1, 1⟩],
     [⟨"inst-1", "hp", "100", 2, 2⟩, ⟨"inst-2", "mp", "5", 2, 2⟩], true, none⟩
    ⟨[⟨"char-2", none, 0, 0⟩],
     [⟨"inst-2", "char-2", none, 1, 1⟩],
     [⟨"inst-2", "mp", "5", 2, 2⟩], true,
     some ⟨[⟨"char-2", none, 0, 0⟩],
           [⟨"inst-2", "char-2", none, 1, 1⟩],
           [⟨"inst-2", "mp", "5", 2, 2⟩]⟩⟩ "char-1" rfl
  exact ⟨rfl, h.1, h.2.1,
    h.2.2 ⟨"inst-1", "char-1", none, 1, 1⟩ (by simp) rfl⟩

/-- After `upsertData`, looking the same `(instanceId, key)` up finds exactly
the freshly inserted row. -/
theorem upsertData_find (st st' : DBState) (instanceId key : String) (value : JValue)
    (now : Nat) (h : DatabaseManager.upsertData st instanceId key value now = .ok ((), st')) :
    st'.data.find? (fun d => d.instanceId == instanceId && d.key == key) =
      some ⟨instanceId, key, encodeValue value, now, now⟩ ∧
    st'.dbOpen = st.dbOpen := by
  unfold DatabaseManager.upsertData at h
  by_cases hopen : st.dbOpen = true
  · rw [if_neg (by rw [hopen]; exact Bool.false_ne_true)] at h
    by_cases hik : instanceId = "" ∨ key = ""
    · rw [if_pos hik] at h
      exact Except.noConfusion h
    · rw [if_neg hik] at h
      simp only [Except.ok.injEq, Prod.mk.injEq, true_and] at h
      constructor
      · rw [show st'.data =
            (st.data.filter fun d => !(d.instanceId == instanceId && d.key == key)) ++
            [⟨instanceId, key, encodeValue value, now, now⟩] from by rw [← h]; rfl]
        rw [List.find?_append, find?_filter_not]
        rw [Option.none_or]
        rw [List.find?_cons_of_pos _ (by
          show (instanceId == instanceId && key == key) = true
          simp)]
      · rw [← h]
        rfl
  · rw [if_pos (by
      simp only [Bool.not_eq_true] at hopen
      rw [hopen]
      rfl)] at h
    exact Except.noConfusion h

/--
C10.  Storing the empty string value through `upsertData` and reading the key
back through `getDataValue` yields `undefined`: `String("") = ""` is stored,
and the read path's `if (!row || !row.value) return undefined` treats the
empty (falsy) stored text exactly like a missing row — the same `undefined`
that a never-written key produces.
-/
theorem upsertData_empty_string_reads_undefined (st st' : DBState) (instanceId key : String)
    (now : Nat)
    (h : DatabaseManager.upsertData st instanceId key (JValue.jstr "") now = .ok ((), st')) :
    DatabaseManager.getDataValue st' instanceId key = .ok none := by
  have hfind := upsertData_find st st' instanceId key (JValue.jstr "") now h
  have hik : ¬(instanceId = "" ∨ key = "") := by
    intro hcontra
    unfold DatabaseManager.upsertData at h
    by_cases hopen : (!st.dbOpen) = true
    · rw [if_pos hopen] at h
      exact Except.noConfusion h
    · rw [if_neg hopen, if_pos hcontra] at h
      exact Except.noConfusion h
  have hopen : st.dbOpen = true := by
    by_contra hcontra
    unfold DatabaseManager.upsertData at h
    rw [if_pos (by
      simp only [Bool.not_eq_true] at hcontra
      rw [hcontra]
      rfl)] at h
    exact Except.noConfusion h
  unfold DatabaseManager.getDataValue
  rw [if_neg hik]
  rw [if_neg (by rw [hfind.2, hopen]; exact Bool.false_ne_true)]
  rw [hfind.1]
  rfl

/-- Witness for C10 on a concrete store: writing `""` under `("inst-1","hp")`
then reading it back gives `undefined`. -/
theorem upsertData_empty_string_reads_undefined_witness :
    DatabaseManager.upsertData ⟨[], [], [], true, none⟩ "inst-1" "hp" (JValue.jstr "") 7 =
      .ok ((), ⟨[], [], [⟨"inst-1", "hp", "", 7, 7⟩], true,
        some ⟨[], [], [⟨"inst-1", "hp", "", 7, 7⟩]⟩⟩) ∧
    DatabaseManager.getDataValue
      ⟨[], [], [⟨"inst-1", "hp", "", 7, 7⟩], true,
        some ⟨[], [], [⟨"inst-1", "hp", "", 7, 7⟩]⟩⟩ "inst-1" "hp" = .ok none :=
  ⟨rfl, upsertData_empty_string_reads_undefined ⟨[], [], [], true, none⟩
    ⟨[], [], [⟨"inst-1", "hp", "", 7, 7⟩], true,
      some ⟨[], [], [⟨"inst-1", "hp", "", 7, 7⟩]⟩⟩ "inst-1" "hp" 7 rfl⟩

/--
C3 counterexample.  The claim includes strings among the JSON-round-trippable
values, but the codec stores primitives via `String(v)` without quoting: the
*string* `"true"` is written as the text `true`, and the read path's
`JSON.parse` turns it into the *boolean* `true`.  So
`upsertData(i,k,"true"); getDataValue(i,k)` returns `true : boolean`, not the
stored string, refuting the claim as stated.
-/
theorem upsertData_string_roundtrip_counterexample :
    DatabaseManager.upsertData ⟨[], [], [], true, none⟩ "inst-1" "hp" (JValue.jstr "true") 0 =
      .ok ((), ⟨[], [], [⟨"inst-1", "hp", "true", 0, 0⟩], true,
        some ⟨[], [], [⟨"inst-1", "hp", "true", 0, 0⟩]⟩⟩) ∧
    DatabaseManager.getDataValue
      ⟨[], [], [⟨"inst-1", "hp", "true", 0, 0⟩], true,
        some ⟨[], [], [⟨"inst-1", "hp", "true", 0, 0⟩]⟩⟩ "inst-1" "hp" =
      .ok (some (JValue.jbool true)) ∧
    JValue.jbool true ≠ JValue.jstr "true" := by
  refine ⟨rfl, rfl, ?_⟩
  intro hcontra
  exact JValue.noConfusion hcontra

/-- `String(n)` of an integer number is never the empty string. -/
theorem intToString_ne_empty (n : Int) : intToString n ≠ "" := by
  unfold intToString
  split
  · intro hc
    exact List.noConfusion (congrArg String.data hc)
  · intro hc
    exact natDigits_ne_nil n.natAbs (congrArg String.data hc)

/-- Reading back a key right after writing it returns the decoded form of
the encoded value (provided the encoding is not the falsy empty string). -/
theorem getDataValue_after_upsert (st st' : DBState) (instanceId key : String)
    (v : JValue) (now : Nat) (hne : encodeValue v ≠ "")
    (h : DatabaseManager.upsertData st instanceId key v now = .ok ((), st')) :
    DatabaseManager.getDataValue st' instanceId key =
      .ok (some (decodeValue (encodeValue v))) := by
  have hfind := upsertData_find st st' instanceId key v now h
  have hik : ¬(instanceId = "" ∨ key = "") := by
    intro hcontra
    unfold DatabaseManager.upsertData at h
    by_cases hopen : (!st.dbOpen) = true
    · rw [if_pos hopen] at h
      exact Except.noConfusion h
    · rw [if_neg hopen, if_pos hcontra] at h
      exact Except.noConfusion h
  have hopen : st.dbOpen = true := by
    by_contra hcontra
    unfold DatabaseManager.upsertData at h
    rw [if_pos (by
      simp only [Bool.not_eq_true] at hcontra
      rw [hcontra]
      rfl)] at h
    exact Except.noConfusion h
  unfold DatabaseManager.getDataValue
  rw [if_neg hik]
  rw [if_neg (by rw [hfind.2, hopen]; exact Bool.false_ne_true)]
  rw [hfind.1]
  dsimp only
  rw [if_neg hne]

/--
C3 amended.  The write-then-read round trip `upsertData(i, k, v);
getDataValue(i, k) == v` holds for every JSON value of the integer-numbered
fragment — null, booleans, integer numbers, and arrays/objects of such
values with arbitrary string members (which `JSON.stringify` quotes) — and
for a top-level string whose text is nonempty and not parseable as JSON.
The exceptions are exactly the counterexample's: a top-level string is
stored unquoted via `String(v)`, so when its text is valid JSON it decodes
to the parsed value (the string `"true"` comes back as the boolean `true`),
and the empty string reads back as `undefined`.
-/
theorem upsertData_getDataValue_roundtrip (st st' : DBState) (instanceId key : String)
    (v : JValue) (now : Nat)
    (hfrag : jsonIntValued v = true)
    (hstr : ∀ s, v = JValue.jstr s → s ≠ "" ∧ jsonParse s = none)
    (h : DatabaseManager.upsertData st instanceId key v now = .ok ((), st')) :
    DatabaseManager.getDataValue st' instanceId key = .ok (some v) := by
  have hstep : encodeValue v ≠ "" ∧ decodeValue (encodeValue v) = v := by
    by_cases hcase : ∃ s, v = JValue.jstr s
    · obtain ⟨s, rfl⟩ := hcase
      obtain ⟨hs, hparse⟩ := hstr s rfl
      refine ⟨hs, ?_⟩
      show decodeValue s = JValue.jstr s
      unfold decodeValue
      rw [hparse]
      rfl
    · exact encode_decode_frag v hfrag fun s hs => hcase ⟨s, hs⟩
  have hmain := getDataValue_after_upsert st st' instanceId key v now hstep.1 h
  rw [hstep.2] at hmain
  exact hmain

/-- The spec's seed fixture: a nested object of integer numbers. -/
def seedStatsValue : JValue :=
  .jobj [("str", .jnum 15), ("con", .jobj [("base", .jnum 14), ("mod", .jnum 2)])]

/-- Witness for the amended C3 at the nested seed object: writing it stores
its `JSON.stringify` text and reading the key back returns the object. -/
theorem upsertData_getDataValue_roundtrip_witness :
    DatabaseManager.upsertData ⟨[], [], [], true, none⟩ "inst-1" "stats" seedStatsValue 4 =
      .ok ((), ⟨[], [], [⟨"inst-1", "stats", encodeValue seedStatsValue, 4, 4⟩], true,
        some ⟨[], [], [⟨"inst-1", "stats", encodeValue seedStatsValue, 4, 4⟩]⟩⟩) ∧
    DatabaseManager.getDataValue
      ⟨[], [], [⟨"inst-1", "stats", encodeValue seedStatsValue, 4, 4⟩], true,
        some ⟨[], [], [⟨"inst-1", "stats", encodeValue seedStatsValue, 4, 4⟩]⟩⟩
      "inst-1" "stats" = .ok (some seedStatsValue) :=
  ⟨rfl, upsertData_getDataValue_roundtrip ⟨[], [], [], true, none⟩
    ⟨[], [], [⟨"inst-1", "stats", encodeValue seedStatsValue, 4, 4⟩], true,
      some ⟨[], [], [⟨"inst-1", "stats", encodeValue seedStatsValue, 4, 4⟩]⟩⟩
    "inst-1" "stats" seedStatsValue 4
    (by simp [seedStatsValue, jsonIntValued, jsonIntValuedFields])
    (fun s hs => JValue.noConfusion hs) rfl⟩

/-- A `find?` is unaffected by filtering when the filter only removes
elements the search predicate rejects. -/
theorem find?_filter_of_imp {α : Type} (q r : α → Bool) (l : List α)
    (himp : ∀ x, q x = true → r x = true) :
    (l.filter r).find? q = l.find? q := by
  induction l with
  | nil => rfl
  | cons a t ih =>
    by_cases hr : r a = true
    · rw [List.filter_cons_of_pos hr]
      cases hq : q a
      · rw [List.find?_cons_of_neg _ (by simp [hq]), List.find?_cons_of_neg _ (by simp [hq])]
        exact ih
      · rw [List.find?_cons_of_pos _ hq, List.find?_cons_of_pos _ hq]
    · rw [List.filter_cons_of_neg (by simpa using hr)]
      have hq : q a = false := by
        cases hq : q a
        · rfl
        · exact absurd (himp a hq) hr
      rw [List.find?_cons_of_neg _ (by simp [hq])]
      exact ih

/--
C7 counterexample.  The claim quantifies over *every* extension identifier
with no registered Store, but an identifier that fails validation — `"."`
here, rejected because it starts with a dot, and certainly never registered —
makes every read operation of the cross-extension view throw instead of
returning its neutral value (`getInstanceData` would have to return `{}`).
-/
theorem reader_invalid_id_counterexample :
    CrossExtensionReader.readerGetInstanceData ⟨[], []⟩ "." "inst-1" =
      .error "Extension ID cannot start with a dot" ∧
    (Except.error "Extension ID cannot start with a dot" ≠
      (Except.ok [] : Except String (List (String × JValue)))) := by
  refine ⟨rfl, ?_⟩
  intro hcontra
  exact Except.noConfusion hcontra

/--
C7 amended.  For every extension identifier that *passes validation* and has
no Store registered under its validated form, each read operation of the
cross-extension view returns its documented neutral value without failing:
`getFullCharacter` and `getFullInstance` return `null`, `getInstanceData`
returns the empty mapping, `getDataValue` returns `undefined`, and
`getAllCharacters` and `getInstancesByCharacter` return the empty list.
(An identifier that fails validation makes these operations throw instead.)
-/
theorem reader_unregistered_neutral (w : World)
    (extensionId v characterId instanceId key : String)
    (hval : validateExtensionId extensionId = .ok v)
    (hreg : CrossExtensionReader.lookupReg w.registry v = none) :
    CrossExtensionReader.readerGetFullCharacter w extensionId characterId = .ok none ∧
    CrossExtensionReader.readerGetFullInstance w extensionId instanceId = .ok none ∧
    CrossExtensionReader.readerGetInstanceData w extensionId instanceId = .ok [] ∧
    CrossExtensionReader.readerGetDataValue w extensionId instanceId key = .ok none ∧
    CrossExtensionReader.readerGetAllCharacters w extensionId = .ok [] ∧
    CrossExtensionReader.readerGetInstancesByCharacter w extensionId characterId = .ok [] := by
  have hidem := validateExtensionId_idem hval
  have hdbm : CrossExtensionReader.getDbManager w v = .ok none := by
    unfold CrossExtensionReader.getDbManager
    rw [hidem]
    simp only [Bind.bind, Except.bind]
    rw [hreg]
  refine ⟨?_, ?_, ?_, ?_, ?_, ?_⟩
  · unfold CrossExtensionReader.readerGetFullCharacter
    rw [hval]
    simp only [Bind.bind, Except.bind]
    rw [hdbm]
  · unfold CrossExtensionReader.readerGetFullInstance
    rw [hval]
    simp only [Bind.bind, Except.bind]
    rw [hdbm]
  · unfold CrossExtensionReader.readerGetInstanceData
    rw [hval]
    simp only [Bind.bind, Except.bind]
    rw [hdbm]
  · unfold CrossExtensionReader.readerGetDataValue
    rw [hval]
    simp only [Bind.bind, Except.bind]
    rw [hdbm]
  · unfold CrossExtensionReader.readerGetAllCharacters
    rw [hval]
    simp only [Bind.bind, Except.bind]
    rw [hdbm]
  · unfold CrossExtensionReader.readerGetInstancesByCharacter
    rw [hval]
    simp only [Bind.bind, Except.bind]
    rw [hdbm]

/-- Witness for the amended C7: a world with one registered store still
returns all six neutral values for the validated-but-unregistered id
`other-ext`. -/
theorem reader_unregistered_neutral_witness :
    validateExtensionId "other-ext" = .ok "other-ext" ∧
    CrossExtensionReader.readerGetFullCharacter
      ⟨[⟨[], [], [], true, none⟩], [("extA", 0)]⟩ "other-ext" "char-1" = .ok none ∧
    CrossExtensionReader.readerGetInstanceData
      ⟨[⟨[], [], [], true, none⟩], [("extA", 0)]⟩ "other-ext" "inst-1" = .ok [] ∧
    CrossExtensionReader.readerGetDataValue
      ⟨[⟨[], [], [], true, none⟩], [("extA", 0)]⟩ "other-ext" "inst-1" "hp" = .ok none := by
  have h := reader_unregistered_neutral ⟨[⟨[], [], [], true, none⟩], [("extA", 0)]⟩
    "other-ext" "other-ext" "char-1" "inst-1" "hp" rfl rfl
  exact ⟨rfl, h.1, h.2.2.1, h.2.2.2.1⟩

/--
C9.  `deregister` removes the Store from the registry map — a subsequent
`getDbManager` lookup returns `null` — but does not close (or otherwise
touch) any Store: the heap of live stores is unchanged, and every other
registry entry is preserved.
-/
theorem deregister_removes_without_closing (w w' : World) (extensionId v : String)
    (hval : validateExtensionId extensionId = .ok v)
    (h : CrossExtensionReader.deregisterExtensionDatabase w extensionId = .ok w') :
    w'.heap = w.heap ∧
    CrossExtensionReader.getDbManager w' extensionId = .ok none ∧
    (∀ k, k ≠ v → CrossExtensionReader.lookupReg w'.registry k =
      CrossExtensionReader.lookupReg w.registry k) := by
  unfold CrossExtensionReader.deregisterExtensionDatabase at h
  rw [hval] at h
  simp only [Bind.bind, Except.bind] at h
  cases hreg : CrossExtensionReader.lookupReg w.registry v with
  | none =>
    rw [hreg] at h
    have hw : w' = w := by
      injection h with h1
      exact h1.symm
    subst hw
    refine ⟨rfl, ?_, fun _ _ => rfl⟩
    unfold CrossExtensionReader.getDbManager
    rw [hval]
    simp only [Bind.bind, Except.bind]
    rw [hreg]
  | some ref =>
    rw [hreg] at h
    have hw : w' = { w with registry := w.registry.filter fun p => !(p.1 == v) } := by
      injection h with h1
      exact h1.symm
    subst hw
    refine ⟨rfl, ?_, ?_⟩
    · unfold CrossExtensionReader.getDbManager
      rw [hval]
      simp only [Bind.bind, Except.bind]
      unfold CrossExtensionReader.lookupReg
      rw [find?_filter_not (fun p : String × StoreRef => p.1 == v)]
      rfl
    · intro k hk
      unfold CrossExtensionReader.lookupReg
      rw [find?_filter_of_imp (fun p : String × StoreRef => p.1 == k)
        (fun p : String × StoreRef => !(p.1 == v)) w.registry
        (fun x hx => by
          simp only [beq_iff_eq] at hx
          simp [hx, hk])]

/-- Witness for C9: deregistering `extA` from a world with one open store
empties the map entry and leaves the heap (the store object) untouched. -/
theorem deregister_removes_without_closing_witness :
    CrossExtensionReader.deregisterExtensionDatabase
      ⟨[⟨[], [], [], true, none⟩], [("extA", 0)]⟩ "extA" =
      .ok ⟨[⟨[], [], [], true, none⟩], []⟩ ∧
    (⟨[⟨[], [], [], true, none⟩], []⟩ : World).heap =
      (⟨[⟨[], [], [], true, none⟩], [("extA", 0)]⟩ : World).heap ∧
    CrossExtensionReader.getDbManager ⟨[⟨[], [], [], true, none⟩], []⟩ "extA" = .ok none := by
  have h := deregister_removes_without_closing
    ⟨[⟨[], [], [], true, none⟩], [("extA", 0)]⟩
    ⟨[⟨[], [], [], true, none⟩], []⟩ "extA" "extA" rfl rfl
  exact ⟨rfl, h.1, h.2.1⟩

/-- `COALESCE(x, NULL) = x`. -/
theorem coalesce_none_right (x : Option String) :
    DatabaseManager.coalesce x none = x := by
  cases x <;> rfl

/-- The name that a sequence of upsert calls leaves behind, starting from
`init`: each call's `name || null` overrides through `COALESCE`, so a falsy
name preserves the accumulator. -/
def lastCoalescedName (init : Option String) (calls : List (Option String × Nat)) :
    Option String :=
  calls.foldl
    (fun acc c => DatabaseManager.coalesce (DatabaseManager.jsTruthyName c.1) acc) init

/-- A sequence of `upsertCharacter` calls on one character id: each element
carries the (optional) name argument and the call's clock reading. -/
def runUpserts (id : String) : DBState → List (Option String × Nat) → Except String DBState
  | st, [] => .ok st
  | st, c :: cs =>
    match DatabaseManager.upsertCharacter st id c.1 c.2 with
    | .ok (_, st') => runUpserts id st' cs
    | .error e => .error e

/-- One `upsertCharacter` call on an id that already has a row: the row is
updated in place (`COALESCE` name patch, fresh `updated_at`), the update is
flushed, and the re-`SELECT` finds the updated row. -/
theorem upsertCharacter_existing (st : DBState) (id : String) (name : Option String)
    (now : Nat) (row : CharRow) (hopen : st.dbOpen = true) (hid : id ≠ "")
    (hfind : st.characters.find? (fun r => r.id == id) = some row) :
    DatabaseManager.upsertCharacter st id name now =
      .ok ({ row with
              name := DatabaseManager.coalesce (DatabaseManager.jsTruthyName name) row.name,
              updatedAt := now },
           DatabaseManager.flushToDisk
             { st with characters := st.characters.map fun r =>
                 if r.id == id then
                   { r with
                     name := DatabaseManager.coalesce (DatabaseManager.jsTruthyName name) r.name,
                     updatedAt := now }
                 else r }) := by
  have hmap := find?_map_update_chars st.characters id
    (fun r => { r with
      name := DatabaseManager.coalesce (DatabaseManager.jsTruthyName name) r.name,
      updatedAt := now }) (fun r => rfl)
  rw [hfind] at hmap
  unfold DatabaseManager.upsertCharacter
  rw [if_neg (by rw [hopen]; exact Bool.false_ne_true), if_neg hid, hfind]
  dsimp only
  rw [hmap]
  rfl

/-- One `upsertCharacter` call on an id with no row yet: a fresh row is
inserted with `created_at = updated_at = now`, flushed, and the re-`SELECT`
finds it. -/
theorem upsertCharacter_insert (st : DBState) (id : String) (name : Option String)
    (now : Nat) (hopen : st.dbOpen = true) (hid : id ≠ "")
    (hfind : st.characters.find? (fun r => r.id == id) = none) :
    DatabaseManager.upsertCharacter st id name now =
      .ok (({ id := id, name := DatabaseManager.jsTruthyName name, createdAt := now, updatedAt := now } : CharRow),
           DatabaseManager.flushToDisk
             { st with characters :=
                 st.characters ++ [({ id := id, name := DatabaseManager.jsTruthyName name, createdAt := now, updatedAt := now } : CharRow)] }) := by
  have happ : (st.characters ++ [({ id := id, name := DatabaseManager.jsTruthyName name, createdAt := now, updatedAt := now } : CharRow)]).find?
      (fun r => r.id == id) = some ({ id := id, name := DatabaseManager.jsTruthyName name, createdAt := now, updatedAt := now } : CharRow) := by
    rw [List.find?_append, hfind, Option.none_or]
    rw [List.find?_cons_of_pos _ (by show (id == id) = true; simp)]
  unfold DatabaseManager.upsertCharacter
  rw [if_neg (by rw [hopen]; exact Bool.false_ne_true), if_neg hid, hfind]
  dsimp only
  rw [happ]

/-- After `upsertCharacter` updates an existing row, the re-`SELECT` on the
resulting state finds the updated row. -/
theorem upsertCharacter_existing_find (st : DBState) (id : String) (name : Option String)
    (now : Nat) (row : CharRow)
    (hfind : st.characters.find? (fun r => r.id == id) = some row) :
    (DatabaseManager.flushToDisk
      { st with characters := st.characters.map fun r =>
          if r.id == id then
            { r with
              name := DatabaseManager.coalesce (DatabaseManager.jsTruthyName name) r.name,
              updatedAt := now }
          else r }).characters.find? (fun r => r.id == id) =
      some { row with
              name := DatabaseManager.coalesce (DatabaseManager.jsTruthyName name) row.name,
              updatedAt := now } := by
  have hmap := find?_map_update_chars st.characters id
    (fun r => { r with
      name := DatabaseManager.coalesce (DatabaseManager.jsTruthyName name) r.name,
      updatedAt := now }) (fun r => rfl)
  rw [hfind] at hmap
  exact hmap

/-- Invariant of the update phase: once the row exists, a monotone-clock
sequence of upserts keeps the row present, preserves `created_at`, folds the
name through `COALESCE`, and keeps `updated_at` at or above `created_at`. -/
theorem runUpserts_invariant (id : String) :
    ∀ (cs : List (Option String × Nat)) (st : DBState) (row : CharRow),
      st.dbOpen = true → id ≠ "" →
      st.characters.find? (fun r => r.id == id) = some row →
      row.id = id →
      row.createdAt ≤ row.updatedAt →
      List.Chain' (· ≤ ·) (row.updatedAt :: cs.map (fun c => c.2)) →
      ∃ (st' : DBState) (row' : CharRow), runUpserts id st cs = .ok st' ∧
        st'.dbOpen = true ∧
        st'.characters.find? (fun r => r.id == id) = some row' ∧
        row'.id = id ∧
        row'.createdAt = row.createdAt ∧
        row'.name = lastCoalescedName row.name cs ∧
        row'.createdAt ≤ row'.updatedAt := by
  intro cs
  induction cs with
  | nil =>
    intro st row hopen hid hfind hrowid hle _
    exact ⟨st, row, rfl, hopen, hfind, hrowid, rfl, rfl, hle⟩
  | cons c cs ih =>
    intro st row hopen hid hfind hrowid hle hchain
    obtain ⟨nm, now⟩ := c
    simp only [List.map_cons, List.chain'_cons] at hchain
    obtain ⟨hstep, hchain'⟩ := hchain
    have hup := upsertCharacter_existing st id nm now row hopen hid hfind
    have hfind₁ := upsertCharacter_existing_find st id nm now row hfind
    have hres := ih
      (DatabaseManager.flushToDisk
        { st with characters := st.characters.map fun r =>
            if r.id == id then
              { r with
                name := DatabaseManager.coalesce (DatabaseManager.jsTruthyName nm) r.name,
                updatedAt := now }
            else r })
      { row with
        name := DatabaseManager.coalesce (DatabaseManager.jsTruthyName nm) row.name,
        updatedAt := now }
      hopen hid hfind₁ hrowid (le_trans hle hstep) hchain'
    obtain ⟨st', row', hrun, hopen', hfind', hid', hcreated', hname', hle'⟩ := hres
    refine ⟨st', row', ?_, hopen', hfind', hid', hcreated', ?_, hle'⟩
    · show runUpserts id st ((nm, now) :: cs) = .ok st'
      unfold runUpserts
      rw [hup]
      exact hrun
    · exact hname'

/--
C6.  Starting from an open store in which `id` has no character row, run any
nonempty sequence of `upsertCharacter` calls for `id` (each with an optional
name and a clock reading, the clock never going backwards).  Afterwards
`getCharacter(id)` returns a row whose `id` is `id`, whose `name` is the
`COALESCE`-fold of the supplied names (the most recently upserted truthy
name; a call without a name — or with the falsy empty string — preserves the
previous name), whose `createdAt` is the first call's timestamp, and whose
`updatedAt` is at least `createdAt`.
-/
theorem upsertCharacter_sequence (st st' : DBState) (id : String)
    (calls : List (Option String × Nat)) (hopen : st.dbOpen = true) (hid : id ≠ "")
    (habsent : st.characters.find? (fun r => r.id == id) = none)
    (hne : calls ≠ [])
    (hchain : List.Chain' (· ≤ ·) (calls.map (fun c => c.2)))
    (hrun : runUpserts id st calls = .ok st') :
    ∃ row : CharRow, DatabaseManager.getCharacter st' id = .ok (some row) ∧
      row.id = id ∧
      row.name = lastCoalescedName none calls ∧
      row.createdAt = (calls.head hne).2 ∧
      row.createdAt ≤ row.updatedAt := by
  cases calls with
  | nil => exact absurd rfl hne
  | cons c cs =>
    obtain ⟨nm, now⟩ := c
    have hup := upsertCharacter_insert st id nm now hopen hid habsent
    have hfind₁ : (DatabaseManager.flushToDisk
        { st with characters :=
            st.characters ++ [({ id := id, name := DatabaseManager.jsTruthyName nm, createdAt := now, updatedAt := now } : CharRow)] }).characters.find?
        (fun r => r.id == id) = some ({ id := id, name := DatabaseManager.jsTruthyName nm, createdAt := now, updatedAt := now } : CharRow) := by
      show (st.characters ++ [({ id := id, name := DatabaseManager.jsTruthyName nm, createdAt := now, updatedAt := now } : CharRow)]).find?
        (fun r => r.id == id) = _
      rw [List.find?_append, habsent, Option.none_or]
      rw [List.find?_cons_of_pos _ (by show (id == id) = true; simp)]
    have hrun₁ : runUpserts id
        (DatabaseManager.flushToDisk
          { st with characters :=
              st.characters ++ [({ id := id, name := DatabaseManager.jsTruthyName nm, createdAt := now, updatedAt := now } : CharRow)] }) cs =
        .ok st' := by
      unfold runUpserts at hrun
      rw [hup] at hrun
      exact hrun
    have hchain₁ : List.Chain' (· ≤ ·) (now :: cs.map (fun c => c.2)) := by
      simp only [List.map_cons] at hchain ⊢
      exact hchain
    obtain ⟨st'', row', hrun'', hopen'', hfind'', hid'', hcreated'', hname'', hle''⟩ :=
      runUpserts_invariant id cs
        (DatabaseManager.flushToDisk
          { st with characters :=
              st.characters ++ [({ id := id, name := DatabaseManager.jsTruthyName nm, createdAt := now, updatedAt := now } : CharRow)] })
        ({ id := id, name := DatabaseManager.jsTruthyName nm, createdAt := now, updatedAt := now } : CharRow)
        hopen hid hfind₁ rfl (le_refl now) hchain₁
    have hsteq : st'' = st' := by
      rw [hrun₁] at hrun''
      injection hrun'' with h1
      exact h1.symm
    subst hsteq
    refine ⟨row', ?_, hid'', ?_, hcreated'', hle''⟩
    · unfold DatabaseManager.getCharacter
      rw [if_neg (by rw [hopen'']; exact Bool.false_ne_true), hfind'']
    · rw [hname'']
      show lastCoalescedName (DatabaseManager.jsTruthyName nm) cs =
        lastCoalescedName none ((nm, now) :: cs)
      unfold lastCoalescedName
      rw [List.foldl_cons, coalesce_none_right]

/-- Witness for C6: on a fresh store, upsert `char-1` with name `Alice` at
time 5, then upsert again without a name at time 9; the row keeps the name,
keeps `createdAt = 5`, and carries `updatedAt = 9 ≥ 5`. -/
theorem upsertCharacter_sequence_witness :
    DatabaseManager.getCharacter
      ⟨[({ id := "char-1", name := some "Alice", createdAt := 5, updatedAt := 9 } : CharRow)],
       [], [], true,
       some ⟨[({ id := "char-1", name := some "Alice", createdAt := 5, updatedAt := 9 } : CharRow)],
             [], []⟩⟩ "char-1" =
      .ok (some ({ id := "char-1", name := some "Alice", createdAt := 5, updatedAt := 9 } : CharRow)) ∧
    ({ id := "char-1", name := some "Alice", createdAt := 5, updatedAt := 9 } : CharRow).name =
      lastCoalescedName none [(some "Alice", 5), (none, 9)] ∧
    ({ id := "char-1", name := some "Alice", createdAt := 5, updatedAt := 9 } : CharRow).createdAt ≤
      ({ id := "char-1", name := some "Alice", createdAt := 5, updatedAt := 9 } : CharRow).updatedAt := by
  obtain ⟨row, hget, hrowid, hname, hcreated, hle⟩ :=
    upsertCharacter_sequence ⟨[], [], [], true, none⟩
      ⟨[({ id := "char-1", name := some "Alice", createdAt := 5, updatedAt := 9 } : CharRow)],
       [], [], true,
       some ⟨[({ id := "char-1", name := some "Alice", createdAt := 5, updatedAt := 9 } : CharRow)],
             [], []⟩⟩
      "char-1" [(some "Alice", 5), (none, 9)] rfl (by decide) rfl (by decide)
      (by
        show List.Chain' (· ≤ ·) [5, 9]
        rw [List.chain'_pair]
        omega) rfl
  have hcalc : DatabaseManager.getCharacter
      ⟨[({ id := "char-1", name := some "Alice", createdAt := 5, updatedAt := 9 } : CharRow)],
       [], [], true,
       some ⟨[({ id := "char-1", name := some "Alice", createdAt := 5, updatedAt := 9 } : CharRow)],
             [], []⟩⟩ "char-1" =
      .ok (some ({ id := "char-1", name := some "Alice", createdAt := 5, updatedAt := 9 } : CharRow)) := rfl
  have hrow : row = { id := "char-1", name := some "Alice", createdAt := 5, updatedAt := 9 } := by
    rw [hcalc] at hget
    injection hget with h1
    injection h1 with h2
    exact h2.symm
  subst hrow
  exact ⟨hget, hname, hle⟩

end ValueTracker
